import Mathlib

/-!
Verification of the HTTP-Web-Server repository against its natural-language
specification.  The C++ sources are shallowly embedded: strings are `List Char`,
`std::optional` is `Option`, fallible operations return `Option`, and the
stateful parser loop is explicit state passing over a stack.  Each definition
mirrors one function of the repository; theorems at the end of the file settle
the specification claims.
-/

set_option maxRecDepth 10000

namespace Wasd

/-! ## Generic helpers (decimal printing, searching, sorting) -/

/-- The decimal digit character for `k < 10`. -/
def digitCh : Nat → Char
  | 0 => '0'
  | 1 => '1'
  | 2 => '2'
  | 3 => '3'
  | 4 => '4'
  | 5 => '5'
  | 6 => '6'
  | 7 => '7'
  | 8 => '8'
  | _ => '9'

/-- Decimal digits of `n`, most significant first, accumulated onto `acc`
(mirrors `std::to_string` for nonnegative values).  The first argument is
fuel, always sufficient at `n + 1`. -/
def natToStrAux : Nat → Nat → List Char → List Char
  | 0, _, acc => acc
  | fuel + 1, n, acc =>
    if n < 10 then digitCh n :: acc
    else natToStrAux fuel (n / 10) (digitCh (n % 10) :: acc)

/-- Decimal representation of a natural number (`std::to_string`). -/
def natToStr (n : Nat) : List Char :=
  natToStrAux (n + 1) n []

/-- Decimal representation of an integer (`std::to_string`). -/
def intToStr (i : Int) : List Char :=
  if i < 0 then '-' :: natToStr i.natAbs else natToStr i.natAbs

/-- Fold a digit list into a natural number, used to invert `natToStr`. -/
def valAcc : Nat → List Char → Nat
  | a, [] => a
  | a, c :: r => valAcc (a * 10 + (c.toNat - 48)) r

/-- Boolean textual-prefix test, the embedding of `uri.rfind(p, 0) == 0` and of
`s.compare(0, p.size(), p) == 0`. -/
def isPre : List Char → List Char → Bool
  | [], _ => true
  | _ :: _, [] => false
  | a :: s, b :: t => a = b && isPre s t

/-- Substring test, the embedding of `s.find(needle) != npos`. -/
def containsSub (n : List Char) : List Char → Bool
  | [] => isPre n []
  | c :: rest => isPre n (c :: rest) || containsSub n rest

/-- Insert into a list sorted by the Boolean comparator `le`. -/
def insertBy (le : α → α → Bool) (x : α) : List α → List α
  | [] => [x]
  | y :: r => if le x y then x :: y :: r else y :: insertBy le x r

/-- Insertion sort by the Boolean comparator `le`; used as the (one legitimate)
outcome of `std::sort`. -/
def sortBy (le : α → α → Bool) : List α → List α
  | [] => []
  | x :: r => insertBy le x (sortBy le r)

/-! ## In-memory filesystem (`src/mock_file_system.cc`)

`MockFileSystem` keeps file contents in `mock_files : path → string` and
directory listings in `mock_directories : path → vector<string>`.  The two
unordered maps are embedded as association lists with insert-or-assign
update (`operator[]` assignment). -/

/-- Lookup in an association list (`std::unordered_map::find`). -/
def alookup (k : String) : List (String × α) → Option α
  | [] => none
  | (k', v) :: r => if k' = k then some v else alookup k r

/-- Insert-or-assign in an association list (`map[k] = v`). -/
def aset (k : String) (v : α) : List (String × α) → List (String × α)
  | [] => [(k, v)]
  | (k', v') :: r => if k' = k then (k, v) :: r else (k', v') :: aset k v r

/-- State of `MockFileSystem`: the `mock_files` and `mock_directories` maps. -/
structure MockFS where
  files : List (String × String)
  dirs : List (String × List String)
deriving DecidableEq

/-- Split a path at its last `'/'` (`path.find_last_of('/')` with the two
`substr` calls); `none` when the path has no slash. -/
def lastSplit : List Char → Option (List Char × List Char)
  | [] => none
  | c :: rest =>
    match lastSplit rest with
    | some (d, f) => some (c :: d, f)
    | none => if c = '/' then some ([], rest) else none

/-- `MockFileSystem::file_exists`. -/
def MockFS.file_exists (fs : MockFS) (path : String) : Bool :=
  (alookup path fs.files).isSome || (alookup path fs.dirs).isSome

/-- `MockFileSystem::read_file`. -/
def MockFS.read_file (fs : MockFS) (path : String) : Option String :=
  alookup path fs.files

/-- `MockFileSystem::write_file`: store the content, then register the filename
under its directory when absent. -/
def MockFS.write_file (fs : MockFS) (path content : String) : MockFS :=
  let files := aset path content fs.files
  match lastSplit path.toList with
  | none => { files := files, dirs := fs.dirs }
  | some (d, f) =>
    let dir := String.mk d
    let fname := String.mk f
    let cur := (alookup dir fs.dirs).getD []
    let cur' := if fname ∈ cur then cur else cur ++ [fname]
    { files := files, dirs := aset dir cur' fs.dirs }

/-- `MockFileSystem::create_directory`: `mock_directories[path] = {}` —
the listing at `path` is unconditionally replaced by the empty vector. -/
def MockFS.create_directory (fs : MockFS) (path : String) : MockFS :=
  { files := fs.files, dirs := aset path [] fs.dirs }

/-- `MockFileSystem::list_directory`. -/
def MockFS.list_directory (fs : MockFS) (path : String) : List String :=
  (alookup path fs.dirs).getD []

/-! ## CRUD handler (`src/unnamed/part_001`, class `CrudRequestHandler`) -/

/-- `std::isspace` set skipped by `std::stoi` / `strtol`. -/
def isSpaceC (c : Char) : Bool :=
  c = ' ' || c = '\t' || c = '\n' || c = '\x0b' || c = '\x0c' || c = '\r'

/-- Decimal digit test. -/
def isDigitC (c : Char) : Bool :=
  48 ≤ c.toNat && c.toNat ≤ 57

/-- Value of a leading digit run; `none` when it is empty (`std::invalid_argument`). -/
def digitsVal (s : List Char) : Option Nat :=
  let ds := s.takeWhile isDigitC
  if ds = [] then none else some (valAcc 0 ds)

/-- Embedding of `std::stoi`: skip whitespace, optional sign, a leading digit
run; `none` on no digits (`invalid_argument`) or out of `int` range
(`out_of_range`), both caught by `generate_id`. -/
def stoiQ (s : List Char) : Option Int :=
  let t := s.dropWhile isSpaceC
  let p : Int × List Char :=
    match t with
    | '+' :: r => (1, r)
    | '-' :: r => (-1, r)
    | _ => (1, t)
  match digitsVal p.2 with
  | none => none
  | some v =>
    let x : Int := p.1 * (v : Int)
    if x < -2147483648 ∨ 2147483647 < x then none else some x

/-- The loop body of `CrudRequestHandler::generate_id`: `stoi` each filename,
keep the result when positive, ignore exceptions. -/
def crudIds : List (List Char) → List Int
  | [] => []
  | f :: r =>
    match stoiQ f with
    | some i => if 0 < i then i :: crudIds r else crudIds r
    | none => crudIds r

/-- `*std::max_element` over a nonempty collection, as a fold. -/
def maxElem : Int → List Int → Int
  | acc, [] => acc
  | acc, x :: r => maxElem (max acc x) r

/-- `CrudRequestHandler::generate_id`, as a function of whether the entity
directory exists and of its listing. -/
def generate_id (dirExists : Bool) (files : List (List Char)) : List Char :=
  if !dirExists then ['1']
  else
    match crudIds files with
    | [] => ['1']
    | x :: r => intToStr (maxElem x r + 1)

/-- Modelled from the spec: "the maximum integer-parseable existing filename"
read as a full-string optional-sign integer parse.  Used only to compare the
claim's wording with `generate_id`. -/
def specIntParse (s : List Char) : Option Int :=
  match s with
  | '-' :: r => if r ≠ [] ∧ r.all isDigitC then some (-(valAcc 0 r : Int)) else none
  | '+' :: r => if r ≠ [] ∧ r.all isDigitC then some (valAcc 0 r : Int) else none
  | _ => if s ≠ [] ∧ s.all isDigitC then some (valAcc 0 s : Int) else none

/-- HTTP verbs distinguished by `CrudRequestHandler::handle_request`'s switch. -/
inductive Method where
  | get
  | post
  | put
  | delete
  | other
deriving DecidableEq

/-- The projection of a `boost::beast` response used by the CRUD handler:
status code, Content-Type, body and optional Location header. -/
structure CResp where
  status : Nat
  contentType : Option (List Char)
  body : List Char
  location : Option (List Char)
deriving DecidableEq

/-- Read-only view of `FileSystemInterface` as consumed by `handle_get`. -/
structure FsIface where
  fileExists : List Char → Bool
  readFile : List Char → Option (List Char)
  listDirectory : List Char → List (List Char)

/-- `CrudRequestHandler::parse_path`: extract `(EntityType, Option Id)` from the
path remaining after the prefix. -/
def parse_path (p : List Char) : List Char × Option (List Char) :=
  let rest :=
    match p with
    | '/' :: r => r
    | _ => p
  if rest = [] then ([], none)
  else
    let entity := rest.takeWhile (fun c => ¬ c = '/')
    if entity = [] then ([], none)
    else
      match rest.drop entity.length with
      | [] => (entity, none)
      | _ :: after =>
        match after with
        | [] => (entity, none)
        | _ :: _ =>
          if after.contains '/' then ([], none) else (entity, some after)

/-- Lexicographic `operator<` on `std::string`. -/
def strLt : List Char → List Char → Bool
  | [], [] => false
  | [], _ :: _ => true
  | _ :: _, [] => false
  | a :: s, b :: t => a.toNat < b.toNat || (a = b && strLt s t)

/-- Comma-space separated JSON array of quoted entries, as built by the listing
loop of `handle_get`. -/
def jsonArrayBody : List (List Char) → List Char
  | [] => []
  | [f] => '"' :: f ++ ['"']
  | f :: r => '"' :: f ++ '"' :: ',' :: ' ' :: jsonArrayBody r

/-- `CrudRequestHandler::handle_get`. -/
def handle_get (fs : FsIface) (dataPath etype : List Char) (id : Option (List Char)) : CResp :=
  let entityDir := dataPath ++ '/' :: etype
  match id with
  | some i =>
    let entityPath := entityDir ++ '/' :: i
    if fs.fileExists entityPath then
      match fs.readFile entityPath with
      | some d =>
        { status := 200, contentType := some "application/json".toList, body := d, location := none }
      | none =>
        { status := 500, contentType := some "application/json".toList,
          body := "\x7b\"error\": \"Failed to read entity data\"\x7d".toList, location := none }
    else
      { status := 404, contentType := some "application/json".toList,
        body := "\x7b\"error\": \"Entity not found\"\x7d".toList, location := none }
  | none =>
    let items := if fs.fileExists entityDir then sortBy strLt (fs.listDirectory entityDir) else []
    { status := 200, contentType := some "application/json".toList,
      body := '[' :: jsonArrayBody items ++ [']'], location := none }

/-- The 404 answered when the target does not start with the handler's prefix. -/
def crudNotFound : CResp :=
  { status := 404, contentType := some "application/json".toList,
    body := "\x7b\"error\": \"Not found\"\x7d".toList, location := none }

/-- The 400 answered on an unparsable path. -/
def crudInvalidPath : CResp :=
  { status := 400, contentType := some "application/json".toList,
    body := "\x7b\"error\": \"Invalid request path\"\x7d".toList, location := none }

/-- The 400 answered on a PUT without an ID. -/
def crudPutNoId : CResp :=
  { status := 400, contentType := some "application/json".toList,
    body := "\x7b\"error\": \"PUT requests require an ID\"\x7d".toList, location := none }

/-- The 400 answered on a DELETE without an ID. -/
def crudDeleteNoId : CResp :=
  { status := 400, contentType := some "application/json".toList,
    body := "\x7b\"error\": \"DELETE requests require an ID\"\x7d".toList, location := none }

/-- The 405 answered on any other verb. -/
def crudMethodNotAllowed : CResp :=
  { status := 405, contentType := some "application/json".toList,
    body := "\x7b\"error\": \"Method not allowed\"\x7d".toList, location := none }

/-- `CrudRequestHandler::handle_request`.  `hpost`, `hput` and `hdel` stand for
`handle_post`, `handle_put` and `handle_delete`, which are only reached with a
valid entity type (and, for PUT/DELETE, a present ID). -/
def crudHandle (fs : FsIface) (hpost : List Char → CResp)
    (hput hdel : List Char → List Char → CResp)
    (pfx dataPath : List Char) (m : Method) (target : List Char) : CResp :=
  if isPre pfx target then
    let rel := target.drop pfx.length
    let pr := parse_path rel
    if pr.1 = [] then crudInvalidPath
    else
      match m with
      | .post => hpost pr.1
      | .get => handle_get fs dataPath pr.1 pr.2
      | .put =>
        match pr.2 with
        | none => crudPutNoId
        | some i => hput pr.1 i
      | .delete =>
        match pr.2 with
        | none => crudDeleteNoId
        | some i => hdel pr.1 i
      | .other => crudMethodNotAllowed
  else crudNotFound

/-! ## Session response post-processing (`src/unnamed/part_004`,
`session::maybe_compress_response` and `compress_gzip`)

The zlib deflate call is external; it is abstracted as an oracle
`gz : List Char → Option (List Char)` (`none` = `compress_gzip` returned
false). -/

/-- The request fields read by `maybe_compress_response`: the optional
`Accept-Encoding` header. -/
structure GReq where
  acceptEncoding : Option (List Char)

/-- The response fields touched by `maybe_compress_response`. -/
structure GResp where
  status : Nat
  body : List Char
  contentEncoding : Option (List Char)
  contentLength : Option Nat
deriving DecidableEq

/-- The `wants_gzip` condition: an `Accept-Encoding` header exists and contains
the substring `"gzip"`. -/
def wantsGzip (req : GReq) : Bool :=
  match req.acceptEncoding with
  | some v => containsSub "gzip".toList v
  | none => false

/-- `session::maybe_compress_response`. -/
def maybeCompress (gz : List Char → Option (List Char)) (req : GReq) (res : GResp) : GResp :=
  if wantsGzip req && decide (1024 < res.body.length) && res.contentEncoding.isNone then
    match gz res.body with
    | some c =>
      { res with body := c, contentEncoding := some "gzip".toList, contentLength := some c.length }
    | none => res
  else res

/-! ## Static handler (`src/static_handler.cc`, first definition of
`static_handler::handle_request` and `url_decode_simple`) -/

/-- `static_handler::url_decode_simple`: `%20` and `+` become spaces. -/
def urlDecode : List Char → List Char
  | '%' :: '2' :: '0' :: rest => ' ' :: urlDecode rest
  | '+' :: rest => ' ' :: urlDecode rest
  | c :: rest => c :: urlDecode rest
  | [] => []

/-- The path-construction and traversal-guard part of
`static_handler::handle_request`: `some p` is the filesystem path the handler
goes on to open; `none` means the request was answered 404 before any file
access. -/
def staticOpenPath (pfx rootDir target : List Char) : Option (List Char) :=
  let dec := urlDecode target
  if isPre pfx dec then
    let rel0 := dec.drop pfx.length
    let rel :=
      match rel0 with
      | [] => ['/']
      | '/' :: r => '/' :: r
      | c :: r => '/' :: c :: r
    let base :=
      if 1 < rootDir.length ∧ rootDir.getLast? = some '/' then rootDir.dropLast else rootDir
    let path := base ++ rel
    if containsSub ['.', '.'] path || ¬ isPre rootDir path then none
    else some path
  else none

/-! ## Markdown handler (`src/handlers/markdown_handler.cc`, first definition
of `markdown_handler::handle_request`) -/

/-- The strong validator `"<size>-<mtime_epoch>"` (quotes included), shared by
the file ETag and the directory-listing ETag. -/
def mkEtag (size time : Nat) : List Char :=
  '"' :: (natToStr size ++ '-' :: natToStr time) ++ ['"']

/-- The conditional-request headers read by the Markdown handler. -/
structure MdReq where
  ifNoneMatch : Option (List Char)
  ifModifiedSince : Option (List Char)

/-- The `send_304` decision for a file request: `If-None-Match` is consulted
first; `If-Modified-Since` only when no `If-None-Match` header is present. -/
def mdSend304 (req : MdReq) (etag lastModified : List Char) : Bool :=
  match req.ifNoneMatch with
  | some v => v = etag
  | none =>
    match req.ifModifiedSince with
    | some v => v = lastModified
    | none => false

/-- The response fields of the Markdown 304 answer. -/
structure MdResp where
  status : Nat
  etag : Option (List Char)
  lastModified : Option (List Char)
  body : List Char
deriving DecidableEq

/-- The conditional-GET step of the file branch: `some r` is the early 304
response (ETag and Last-Modified set, body never assigned), `none` means the
handler continues to serve the file. -/
def mdConditional (req : MdReq) (etag lastModified : List Char) : Option MdResp :=
  if mdSend304 req etag lastModified then
    some { status := 304, etag := some etag, lastModified := some lastModified, body := [] }
  else none

/-- Modelled from the spec: "If `If-None-Match` equals ETag, or
`If-Modified-Since` equals Last-Modified, respond 304" read as a plain
disjunction.  Used only to compare the claim's wording with `mdSend304`. -/
def specSend304 (req : MdReq) (etag lastModified : List Char) : Bool :=
  req.ifNoneMatch = some etag || req.ifModifiedSince = some lastModified

/-- One entry of the directory-listing cache `g_dir_cache`. -/
structure DirCacheEntry where
  html : List Char
  etag : List Char
  lastModified : List Char
  saved : Nat
deriving DecidableEq

/-- The cache interaction of one directory-index request, restricted to a
single canonical directory path: a cache entry younger than the 5-second TTL is
served as-is, otherwise the index is re-rendered, its ETag is
`"<byte_length>-<epoch_seconds>"` with the current time, and the entry is
replaced.  Returns the served ETag and the cache state left behind.  `page` and
`lastModified` stand for the freshly rendered index and the directory's
mtime-derived HTTP date. -/
def dirCacheStep (cache : Option DirCacheEntry) (now : Nat) (page lastModified : List Char) :
    List Char × Option DirCacheEntry :=
  let fresh :=
    let et := mkEtag page.length now
    (et, some { html := page, etag := et, lastModified := lastModified, saved := now })
  match cache with
  | some e => if now - e.saved < 5 then (e.etag, some e) else fresh
  | none => fresh

/-! ## Config parser (`src/config_parser.cc`)

`NginxConfigStatement` / `NginxConfig` become the mutual inductives
`NStmt` / `NChild` / `NStmts`; the token is a `List Char`.  The tokenizer
`NginxConfigParser::ParseToken` becomes `lexToken` with one helper per
`TokenParserState`, and the `Parse` loop becomes `parseLoop`, passing the
`config_stack` explicitly (a child block is attached to its parent statement
when its closing brace is popped, observationally the same as the in-place
`reset` at the opening brace). -/

/-- The token kinds returned by `ParseToken` plus the initial `START` marker. -/
inductive TokKind where
  | start
  | normal
  | quoted
  | startBlock
  | endBlock
  | statementEnd
  | comment
  | eof
  | error
deriving DecidableEq

mutual
/-- `NginxConfigStatement`: tokens plus an optional child block. -/
inductive NStmt : Type where
  | mk (tokens : List (List Char)) (child : NChild)
deriving DecidableEq
/-- The `child_block_` smart pointer: either absent or one block. -/
inductive NChild : Type where
  | leaf
  | block (b : NStmts)
deriving DecidableEq
/-- `NginxConfig`: the ordered statements of one block. -/
inductive NStmts : Type where
  | nil
  | cons (s : NStmt) (t : NStmts)
deriving DecidableEq
end

/-- The whitespace set skipped in `TOKEN_STATE_INITIAL_WHITESPACE`. -/
def isWS (c : Char) : Bool :=
  c = ' ' || c = '\t' || c = '\n' || c = '\r'

/-- The delimiters that end a `NORMAL` token.  The source checks `'\t'` twice
instead of `'\r'`, so a carriage return does not end a bare token. -/
def isNormalDelim (c : Char) : Bool :=
  c = ' ' || c = '\t' || c = '\n' || c = ';' || c = '\x7b' || c = '\x7d'

/-- The delimiters that may legally follow a closing quote. -/
def isQuoteDelim (c : Char) : Bool :=
  c = ' ' || c = '\t' || c = '\n' || c = '\r' || c = ';' || c = '\x7b' || c = '\x7d'

/-- `TOKEN_STATE_TOKEN_TYPE_NORMAL`: accumulate until a delimiter (left in the
input, mirroring `unget`); end of input yields `EOF` with the accumulated text. -/
def lexNormal : List Char → List Char → TokKind × List Char × List Char
  | [], acc => (.eof, acc, [])
  | c :: rest, acc =>
    if isNormalDelim c then (.normal, acc, c :: rest)
    else lexNormal rest (acc ++ [c])

/-- `TOKEN_STATE_SINGLE_QUOTE` / `TOKEN_STATE_DOUBLE_QUOTE` for quote character
`q`: a backslash also consumes the next character; the closing quote must be
followed by a delimiter or end of input. -/
def lexQuote (q : Char) : List Char → List Char → TokKind × List Char × List Char
  | [], acc => (.error, acc, [])
  | c :: rest, acc =>
    let acc' := acc ++ [c]
    if c = '\\' then
      match rest with
      | [] => (.error, acc', [])
      | d :: rest' => lexQuote q rest' (acc' ++ [d])
    else if c = q then
      match rest with
      | [] => (.quoted, acc', [])
      | d :: _ => if isQuoteDelim d then (.quoted, acc', rest) else (.error, acc', rest)
    else lexQuote q rest acc'

/-- `TOKEN_STATE_TOKEN_TYPE_COMMENT`: accumulate to end of line; end of input
yields `EOF` with the accumulated text. -/
def lexComment : List Char → List Char → TokKind × List Char × List Char
  | [], acc => (.eof, acc, [])
  | c :: rest, acc =>
    if c = '\n' || c = '\r' then (.comment, acc, rest)
    else lexComment rest (acc ++ [c])

/-- `NginxConfigParser::ParseToken`: kind, token text, and remaining input. -/
def lexToken : List Char → TokKind × List Char × List Char
  | [] => (.eof, [], [])
  | c :: rest =>
    if c = '\x7b' then (.startBlock, [c], rest)
    else if c = '\x7d' then (.endBlock, [c], rest)
    else if c = '#' then lexComment rest [c]
    else if c = '"' then lexQuote '"' rest [c]
    else if c = '\'' then lexQuote '\'' rest [c]
    else if c = ';' then (.statementEnd, [c], rest)
    else if isWS c then lexToken rest
    else lexNormal rest [c]

/-- Append one statement at the end of a block (`statements_.emplace_back`). -/
def snocS : NStmts → NStmt → NStmts
  | .nil, s => .cons s .nil
  | .cons a t, s => .cons a (snocS t s)

/-- Modify the last statement of a block (`statements_.back()`); the empty case
is unreachable at every call site. -/
def mapLastS (f : NStmt → NStmt) : NStmts → NStmts
  | .nil => .nil
  | .cons a .nil => .cons (f a) .nil
  | .cons a t => .cons a (mapLastS f t)

/-- Push one more token onto a statement (`tokens_.push_back`). -/
def addTok (v : List Char) : NStmt → NStmt
  | .mk ts c => .mk (ts ++ [v]) c

/-- Attach a finished child block (`child_block_.reset`). -/
def setChild (b : NStmts) : NStmt → NStmt
  | .mk ts _ => .mk ts (.block b)

/-- The transition check for a `NORMAL`/`QUOTED` token (all six stored
predecessor kinds are legal). -/
def pushAllowed (l : TokKind) : Bool :=
  l = .start || l = .statementEnd || l = .startBlock || l = .endBlock ||
    l = .normal || l = .quoted

/-- `NginxConfigParser::Parse`: the token loop over the explicit config stack.
`last` is `last_token_type`; the head of `stack` is `config_stack.top()`.  The
first argument is fuel; one unit is spent per token, and `s.length < fuel`
always suffices because every token consumes input. -/
def parseLoopF : Nat → List Char → TokKind → List NStmts → Option NStmts
  | 0, _, _, _ => none
  | fuel + 1, s, last, stack =>
    match lexToken s with
    | (.error, _, _) => none
    | (.start, _, _) => none
    | (.comment, _, s') => parseLoopF fuel s' last stack
    | (.normal, v, s') =>
      if pushAllowed last then
        match stack with
        | top :: r =>
          if last = .normal then parseLoopF fuel s' .normal (mapLastS (addTok v) top :: r)
          else parseLoopF fuel s' .normal (snocS top (.mk [v] .leaf) :: r)
        | [] => none
      else none
    | (.quoted, v, s') =>
      if pushAllowed last then
        match stack with
        | top :: r =>
          if last = .normal then parseLoopF fuel s' .quoted (mapLastS (addTok v) top :: r)
          else parseLoopF fuel s' .quoted (snocS top (.mk [v] .leaf) :: r)
        | [] => none
      else none
    | (.statementEnd, _, s') =>
      if last = .normal || last = .quoted then parseLoopF fuel s' .statementEnd stack else none
    | (.startBlock, _, s') =>
      if last = .normal || last = .quoted then parseLoopF fuel s' .startBlock (.nil :: stack)
      else none
    | (.endBlock, _, s') =>
      if last = .statementEnd || last = .endBlock || last = .startBlock then
        match stack with
        | top :: parent :: r => parseLoopF fuel s' .endBlock (mapLastS (setChild top) parent :: r)
        | _ => none
      else none
    | (.eof, v, _) =>
      if v ≠ [] then none
      else if last = .start || last = .statementEnd || last = .endBlock then
        match stack with
        | [top] => some top
        | _ => none
      else none

/-- The parse loop with its canonical, always-sufficient fuel. -/
def parseLoop (s : List Char) (last : TokKind) (stack : List NStmts) : Option NStmts :=
  parseLoopF (s.length + 1) s last stack

/-- `NginxConfigParser::Parse` on a whole input. -/
def parseConfig (s : List Char) : Option NStmts :=
  parseLoop s .start [.nil]

/-- One iteration of the parse loop, expressed through `parseLoop` itself;
`parseLoop_eq` below shows the loop satisfies this unfolding (proof device). -/
def parseStep (s : List Char) (last : TokKind) (stack : List NStmts) : Option NStmts :=
  match lexToken s with
  | (.error, _, _) => none
  | (.start, _, _) => none
  | (.comment, _, s') => parseLoop s' last stack
  | (.normal, v, s') =>
    if pushAllowed last then
      match stack with
      | top :: r =>
        if last = .normal then parseLoop s' .normal (mapLastS (addTok v) top :: r)
        else parseLoop s' .normal (snocS top (.mk [v] .leaf) :: r)
      | [] => none
    else none
  | (.quoted, v, s') =>
    if pushAllowed last then
      match stack with
      | top :: r =>
        if last = .normal then parseLoop s' .quoted (mapLastS (addTok v) top :: r)
        else parseLoop s' .quoted (snocS top (.mk [v] .leaf) :: r)
      | [] => none
    else none
  | (.statementEnd, _, s') =>
    if last = .normal || last = .quoted then parseLoop s' .statementEnd stack else none
  | (.startBlock, _, s') =>
    if last = .normal || last = .quoted then parseLoop s' .startBlock (.nil :: stack)
    else none
  | (.endBlock, _, s') =>
    if last = .statementEnd || last = .endBlock || last = .startBlock then
      match stack with
      | top :: parent :: r => parseLoop s' .endBlock (mapLastS (setChild top) parent :: r)
      | _ => none
    else none
  | (.eof, v, _) =>
    if v ≠ [] then none
    else if last = .start || last = .statementEnd || last = .endBlock then
      match stack with
      | [top] => some top
      | _ => none
    else none

/-- Two-space indentation per nesting depth. -/
def indentCh (d : Nat) : List Char :=
  List.replicate (2 * d) ' '

/-- Tokens joined by single spaces. -/
def joinToks : List (List Char) → List Char
  | [] => []
  | [t] => t
  | t :: r => t ++ ' ' :: joinToks r

mutual
/-- `NginxConfigStatement::ToString`. -/
def serStmt (d : Nat) : NStmt → List Char
  | .mk ts child =>
    indentCh d ++ joinToks ts ++
      (match child with
       | .leaf => [';', '\n']
       | .block b => ' ' :: '\x7b' :: '\n' :: (serStmts (d + 1) b ++ indentCh d ++ ['\x7d', '\n']))
/-- `NginxConfig::ToString`. -/
def serStmts (d : Nat) : NStmts → List Char
  | .nil => []
  | .cons s t => serStmt d s ++ serStmts d t
end

/-- `serialize(T)`: the canonical text of a whole config tree. -/
def serialize (cfg : NStmts) : List Char :=
  serStmts 0 cfg

/-! ### Well-formedness of parser output (used to prove the round trip) -/

/-- Characters that cannot begin a bare token: in the initial-whitespace state
they are punctuation, a comment, a quote, or skipped whitespace. -/
def startForbidden (c : Char) : Bool :=
  c = '\x7b' || c = '\x7d' || c = '#' || c = '"' || c = '\'' || c = ';' || isWS c

/-- Shape of a `NORMAL` token produced by the tokenizer. -/
def okNormalTok (t : List Char) : Bool :=
  match t with
  | [] => false
  | c :: _ => !startForbidden c && t.all (fun x => !isNormalDelim x)

/-- Shape of everything after the opening quote of a `QUOTED` token: escaped
pairs and plain characters, up to a final closing quote. -/
def closedTail (q : Char) : List Char → Bool
  | [] => false
  | c :: rest =>
    if c = '\\' then
      match rest with
      | [] => false
      | _ :: rest' => closedTail q rest'
    else if c = q then rest.isEmpty
    else closedTail q rest

/-- Shape of a `QUOTED` token produced by the tokenizer. -/
def okQuotedTok (t : List Char) : Bool :=
  match t with
  | [] => false
  | c :: tail => (c = '"' || c = '\'') && closedTail c tail

/-- A token of either kind. -/
def okTok (t : List Char) : Bool :=
  okNormalTok t || okQuotedTok t

/-- Tokens of one parsed statement: nonempty, quoted only in last position. -/
def okTokens : List (List Char) → Bool
  | [] => false
  | [t] => okTok t
  | t :: r => okNormalTok t && okTokens r

mutual
/-- Well-formed completed statement. -/
def okStmt : NStmt → Bool
  | .mk ts child => okTokens ts && okChild child
/-- Well-formed optional child block. -/
def okChild : NChild → Bool
  | .leaf => true
  | .block b => okStmts b
/-- Well-formed completed block. -/
def okStmts : NStmts → Bool
  | .nil => true
  | .cons s t => okStmt s && okStmts t
end

/-- A frame whose back statement is still open: every earlier statement is
complete, the back one has well-formed tokens and no child yet. -/
def lastOpen : NStmts → Bool
  | .nil => false
  | .cons (.mk ts c) .nil => okTokens ts && (match c with | .leaf => true | .block _ => false)
  | .cons s t => okStmt s && lastOpen t

/-- A frame whose back statement is mid-construction after a `NORMAL` token:
its tokens are all of `NORMAL` shape. -/
def lastAllNormal : NStmts → Bool
  | .nil => false
  | .cons (.mk ts c) .nil =>
    !ts.isEmpty && ts.all okNormalTok && (match c with | .leaf => true | .block _ => false)
  | .cons s t => okStmt s && lastAllNormal t

/-- Invariant of the top stack frame, indexed by `last_token_type`. -/
def TopOk : TokKind → NStmts → Prop
  | .start, f => okStmts f = true
  | .statementEnd, f => okStmts f = true
  | .startBlock, f => okStmts f = true
  | .endBlock, f => okStmts f = true
  | .normal, f => lastAllNormal f = true
  | .quoted, f => lastOpen f = true
  | _, _ => False

/-- Invariant of the whole config stack. -/
def StackOk (last : TokKind) : List NStmts → Prop
  | top :: rest => TopOk last top ∧ ∀ f ∈ rest, lastOpen f = true
  | [] => False

/-- The `last_token_type` values possible between two statements of a block. -/
def BetweenTok (lk : TokKind) : Prop :=
  lk = .start ∨ lk = .statementEnd ∨ lk = .endBlock ∨ lk = .startBlock

/-- Concatenation of two blocks (proof device for the round-trip argument). -/
def appendS : NStmts → NStmts → NStmts
  | .nil, b => b
  | .cons s t, b => .cons s (appendS t b)

/-- The `last_token_type` value right after re-reading a serialized statement:
`;` for a leaf statement, `}` for a block statement. -/
def stmtEndKind : NStmt → TokKind
  | .mk _ .leaf => .statementEnd
  | .mk _ (.block _) => .endBlock

/-- The `last_token_type` value after re-reading a serialized block, given the
value `lk` it had before. -/
def nextLast (lk : TokKind) : NStmts → TokKind
  | .nil => lk
  | .cons s t => nextLast (stmtEndKind s) t

/-- The kind the tokenizer assigns to a stored token. -/
def tokKindOf (t : List Char) : TokKind :=
  if okNormalTok t then .normal else .quoted

/-- The kind of the last token of a statement. -/
def lastTokKind : List (List Char) → TokKind
  | [] => .error
  | [t] => tokKindOf t
  | _ :: r => lastTokKind r

/-! ## Handler registry (`src/handler_registry.cc`, first definitions of
`HandlerRegistry::Init` and `HandlerRegistry::Match`) -/

/-- The bound factory stored in a mapping: `StaticHandler` captures prefix and
root, `EchoHandler` captures the prefix, every other type falls back to the
archetype registered under its name. -/
inductive HSpec where
  | staticH (pfx root : List Char)
  | echoH (pfx : List Char)
  | generic (typeName : List Char)
deriving DecidableEq

/-- One routing-table entry `(prefix, factory)`. -/
abbrev RMapping := List Char × HSpec

/-- The handler type names registered through `REGISTER_HANDLER` at program
start (`SleepHandler` has no registration in the sources). -/
def registeredTypes : List (List Char) :=
  ["EchoHandler".toList, "StaticHandler".toList, "NotFoundHandler".toList,
   "HealthRequestHandler".toList, "MarkdownHandler".toList, "CrudHandler".toList]

/-- `ParseStaticBlock`: the first `root <path>;` statement of the child block. -/
def parseStaticBlock : NStmts → Option (List Char)
  | .nil => none
  | .cons (.mk ts _) rest =>
    if ts.length = 2 ∧ ts.headD [] = "root".toList then some (ts.getD 1 [])
    else parseStaticBlock rest

/-- Descending prefix length, the comparator of the final `std::sort`. -/
def lenGe (a b : RMapping) : Bool :=
  b.1.length ≤ a.1.length

/-- The statement walk of `HandlerRegistry::Init`: validate each
`location <prefix> <Type> { ... }` and append its bound factory; `none` is
`return false`. -/
def regInitLoop : NStmts → List RMapping → Option (List RMapping)
  | .nil, acc => some acc
  | .cons (.mk ts child) rest, acc =>
    if ts.length < 3 ∨ ts.headD [] ≠ "location".toList then regInitLoop rest acc
    else
      match child with
      | .leaf => none
      | .block blk =>
        let pfx := ts.getD 1 []
        let ty := ts.getD 2 []
        if pfx = [] ∨ pfx.headD ' ' ≠ '/' then none
        else if 1 < pfx.length ∧ pfx.getLast? = some '/' then none
        else if acc.any (fun m => m.1 = pfx) then none
        else if ¬ registeredTypes.contains ty then none
        else if ty = "StaticHandler".toList then
          match parseStaticBlock blk with
          | none => none
          | some root => regInitLoop rest (acc ++ [(pfx, .staticH pfx root)])
        else if ty = "EchoHandler".toList then
          regInitLoop rest (acc ++ [(pfx, .echoH pfx)])
        else
          regInitLoop rest (acc ++ [(pfx, .generic ty)])

/-- `HandlerRegistry::Init`: walk the top-level statements, then sort the
mappings longest-prefix first. -/
def regInit (cfg : NStmts) : Option (List RMapping) :=
  (regInitLoop cfg []).map (sortBy lenGe)

/-- `HandlerRegistry::Match`: first mapping whose prefix matches at position 0;
`none` is the `nullptr` returned when no mapping matches. -/
def regMatch : List RMapping → List Char → Option RMapping
  | [], _ => none
  | m :: r, uri => if isPre m.1 uri then some m else regMatch r uri

/-! ## Concrete inputs used by witnesses, and proof-side helpers -/

/-- Recover the `<epoch_seconds>` component of a `"<size>-<time>"` validator
(proof helper, not part of the embedding). -/
def etagTime (s : List Char) : Nat :=
  valAcc 0 (((s.dropWhile (fun c => ¬ c = '-')).drop 1).dropLast)

/-- A concrete compression oracle for witnesses. -/
def gzW : List Char → Option (List Char) := fun _ => some ['z']

/-- A concrete request advertising gzip support. -/
def reqW : GReq := { acceptEncoding := some "deflate, gzip".toList }

/-- A concrete response with a 1025-byte body. -/
def resW : GResp :=
  { status := 200, body := List.replicate 1025 'a', contentEncoding := none,
    contentLength := some 1025 }

/-- A Markdown 304 as it reaches the session's post-processing: the three
not-modified paths of `markdown_handler::handle_request` build the response
with headers only and never call `prepare_payload`, so the body is empty and
no Content-Length is set. -/
def res304W : GResp :=
  { status := 304, body := [], contentEncoding := none, contentLength := none }

/-- A concrete config text exercising comments, quoting and nesting. -/
def inputW : List Char :=
  "port 8080; # setup\nlocation /e EchoHandler \x7b\n  root '/tmp/a b';\n\x7d\n".toList

/-- The tree that `Parse` produces from `inputW`. -/
def cfgW : NStmts :=
  .cons (.mk ["port".toList, "8080".toList] .leaf)
    (.cons (.mk ["location".toList, "/e".toList, "EchoHandler".toList]
      (.block (.cons (.mk ["root".toList, "'/tmp/a b'".toList] .leaf) .nil))) .nil)

/-- A one-location config (`location /echo EchoHandler { }`). -/
def cfgEchoW : NStmts :=
  .cons (.mk ["location".toList, "/echo".toList, "EchoHandler".toList] (.block .nil)) .nil

/-- A CrudHandler location whose child block lacks any `data_path` directive. -/
def cfgCrudW : NStmts :=
  .cons (.mk ["location".toList, "/api".toList, "CrudHandler".toList] (.block .nil)) .nil

/-- A concrete read-only filesystem view for CRUD witnesses. -/
def fsW : FsIface :=
  { fileExists := fun _ => true,
    readFile := fun _ => some "\x7b\x7d".toList,
    listDirectory := fun _ => ["2".toList, "1".toList] }

/-- Concrete stand-in for `handle_post` in witnesses. -/
def hpostW : List Char → CResp := fun _ => crudMethodNotAllowed

/-- Concrete stand-in for `handle_put` in witnesses. -/
def hputW : List Char → List Char → CResp := fun _ _ => crudMethodNotAllowed

/-- Concrete stand-in for `handle_delete` in witnesses. -/
def hdelW : List Char → List Char → CResp := fun _ _ => crudMethodNotAllowed

/-! ## Theorems -/

theorem lexNormal_rest_le (s : List Char) :
    ∀ acc, (lexNormal s acc).2.2.length ≤ s.length := by
  induction s with
  | nil => intro acc; simp [lexNormal]
  | cons c rest ih =>
    intro acc
    simp only [lexNormal]
    by_cases h : isNormalDelim c
    · simp [h]
    · simpa [h] using Nat.le_succ_of_le (ih (acc ++ [c]))

theorem lexQuote_rest_le (q : Char) :
    ∀ (s acc : List Char), (lexQuote q s acc).2.2.length ≤ s.length
  | [], _ => le_refl _
  | c :: rest, acc => by
    rw [lexQuote.eq_def]
    dsimp only
    by_cases hb : c = '\\'
    · rw [if_pos hb]
      match rest with
      | [] => simp
      | d :: rest' =>
        exact le_trans (lexQuote_rest_le q rest' _)
          (by simp [Nat.le_succ_of_le, Nat.le_succ])
    · by_cases hq : c = q
      · rw [if_neg hb, if_pos hq]
        match rest with
        | [] => simp
        | d :: rest' =>
          by_cases hd : isQuoteDelim d <;> simp [hd, Nat.le_succ]
      · rw [if_neg hb, if_neg hq]
        exact Nat.le_succ_of_le (lexQuote_rest_le q rest _)

theorem lexComment_rest_le (s : List Char) :
    ∀ acc, (lexComment s acc).2.2.length ≤ s.length := by
  induction s with
  | nil => intro acc; simp [lexComment]
  | cons c rest ih =>
    intro acc
    simp only [lexComment]
    by_cases h : (c = '\n' || c = '\r') = true
    · simp [h, Nat.le_succ]
    · simpa [h] using Nat.le_succ_of_le (ih (acc ++ [c]))

theorem lexToken_rest_lt :
    ∀ (s : List Char), (lexToken s).1 ≠ .eof → (lexToken s).2.2.length < s.length
  | [], h => by simp [lexToken] at h
  | c :: rest, h => by
    simp only [lexToken] at h ⊢
    split_ifs at h ⊢ with h1 h2 h3 h4 h5 h6 h7
    · simp
    · simp
    · exact Nat.lt_succ_of_le (lexComment_rest_le rest [c])
    · exact Nat.lt_succ_of_le (lexQuote_rest_le '"' rest [c])
    · exact Nat.lt_succ_of_le (lexQuote_rest_le '\'' rest [c])
    · simp
    · exact Nat.lt_succ_of_le (le_of_lt (lexToken_rest_lt rest h))
    · exact Nat.lt_succ_of_le (lexNormal_rest_le rest [c])

/-! ### Decimal printing -/

theorem digitCh_toNat (k : Nat) (h : k < 10) : (digitCh k).toNat = 48 + k := by
  interval_cases k <;> rfl

theorem digitCh_isDigit (k : Nat) (h : k < 10) : isDigitC (digitCh k) = true := by
  interval_cases k <;> decide

theorem natToStrAux_step (f n : Nat) (acc : List Char) :
    natToStrAux (f + 1) n acc =
      if n < 10 then digitCh n :: acc else natToStrAux f (n / 10) (digitCh (n % 10) :: acc) :=
  rfl

theorem natToStrAux_fuel (n : Nat) :
    ∀ f f' acc, n < f → n < f' → natToStrAux f n acc = natToStrAux f' n acc := by
  induction n using Nat.strong_induction_on with
  | _ n ih =>
    intro f f' acc hf hf'
    match f, f' with
    | fuel + 1, fuel' + 1 =>
      rw [natToStrAux_step, natToStrAux_step]
      by_cases h : n < 10
      · simp [h]
      · have hlt : n / 10 < n :=
          Nat.div_lt_self (Nat.lt_of_lt_of_le (by decide) (Nat.le_of_not_lt h)) (by decide)
        simp only [h, if_false]
        exact ih (n / 10) hlt fuel fuel' _ (by omega) (by omega)

theorem natToStr_lt10 (n : Nat) (h : n < 10) : natToStr n = [digitCh n] := by
  rw [natToStr, natToStrAux_step]
  simp [h]

theorem natToStrAux_acc (n : Nat) :
    ∀ acc, natToStrAux (n + 1) n acc = natToStr n ++ acc := by
  induction n using Nat.strong_induction_on with
  | _ n ih =>
    intro acc
    by_cases h : n < 10
    · rw [natToStrAux_step, natToStr_lt10 n h]
      simp [h]
    · have hlt : n / 10 < n :=
        Nat.div_lt_self (Nat.lt_of_lt_of_le (by decide) (Nat.le_of_not_lt h)) (by decide)
      have h1 : natToStrAux (n + 1) n acc = natToStrAux n (n / 10) (digitCh (n % 10) :: acc) := by
        rw [natToStrAux_step]; simp [h]
      have h2 : natToStrAux n (n / 10) (digitCh (n % 10) :: acc)
          = natToStrAux (n / 10 + 1) (n / 10) (digitCh (n % 10) :: acc) :=
        natToStrAux_fuel _ _ _ _ (by omega) (by omega)
      have h3 := ih (n / 10) hlt (digitCh (n % 10) :: acc)
      have h4 : natToStr n = natToStr (n / 10) ++ [digitCh (n % 10)] := by
        have h5 : natToStr n = natToStrAux n (n / 10) [digitCh (n % 10)] := by
          rw [natToStr, natToStrAux_step]; simp [h]
        have h6 : natToStrAux n (n / 10) [digitCh (n % 10)]
            = natToStrAux (n / 10 + 1) (n / 10) [digitCh (n % 10)] :=
          natToStrAux_fuel _ _ _ _ (by omega) (by omega)
        have h7 := ih (n / 10) hlt [digitCh (n % 10)]
        rw [h5, h6, h7]
      rw [h1, h2, h3, h4, List.append_assoc]
      rfl

theorem natToStr_ge10 (n : Nat) (h : 10 ≤ n) :
    natToStr n = natToStr (n / 10) ++ [digitCh (n % 10)] := by
  have h' : ¬ n < 10 := Nat.not_lt.mpr h
  have h1 : natToStr n = natToStrAux n (n / 10) [digitCh (n % 10)] := by
    rw [natToStr, natToStrAux_step]; simp [h']
  rw [h1, natToStrAux_fuel _ _ (n / 10 + 1) _ (by omega) (by omega), natToStrAux_acc]

theorem valAcc_nil (a : Nat) : valAcc a [] = a := rfl

theorem valAcc_cons (a : Nat) (c : Char) (r : List Char) :
    valAcc a (c :: r) = valAcc (a * 10 + (c.toNat - 48)) r := rfl

theorem valAcc_append (xs : List Char) :
    ∀ a ys, valAcc a (xs ++ ys) = valAcc (valAcc a xs) ys := by
  induction xs with
  | nil => intro a ys; rfl
  | cons c r ih =>
    intro a ys
    show valAcc (a * 10 + (c.toNat - 48)) (r ++ ys) = valAcc (valAcc (a * 10 + (c.toNat - 48)) r) ys
    exact ih _ ys

theorem valAcc_natToStr (n : Nat) :
    ∀ a, valAcc a (natToStr n) = a * 10 ^ (natToStr n).length + n := by
  induction n using Nat.strong_induction_on with
  | _ n ih =>
    intro a
    by_cases h : n < 10
    · rw [natToStr_lt10 n h]
      show valAcc a [digitCh n] = a * 10 ^ 1 + n
      rw [pow_one]
      show a * 10 + ((digitCh n).toNat - 48) = a * 10 + n
      rw [digitCh_toNat n h]
      omega
    · have h10 : 10 ≤ n := Nat.le_of_not_lt h
      have hlt : n / 10 < n := Nat.div_lt_self (by omega) (by decide)
      rw [natToStr_ge10 n h10, valAcc_append]
      rw [ih (n / 10) hlt a]
      rw [valAcc_cons, valAcc_nil]
      simp only [List.length_append, List.length_singleton]
      rw [digitCh_toNat (n % 10) (Nat.mod_lt n (by decide))]
      have h48 : 48 + n % 10 - 48 = n % 10 := by omega
      rw [h48, pow_succ]
      calc (a * 10 ^ (natToStr (n / 10)).length + n / 10) * 10 + n % 10
          = a * (10 ^ (natToStr (n / 10)).length * 10) + (10 * (n / 10) + n % 10) := by ring
        _ = a * (10 ^ (natToStr (n / 10)).length * 10) + n := by rw [Nat.div_add_mod]

theorem natToStr_parse (n : Nat) : valAcc 0 (natToStr n) = n := by
  simpa using valAcc_natToStr n 0

theorem natToStr_inj {m n : Nat} (h : natToStr m = natToStr n) : m = n := by
  have := natToStr_parse m
  rw [h, natToStr_parse] at this
  omega

theorem natToStr_digits (n : Nat) : ∀ c ∈ natToStr n, isDigitC c = true := by
  induction n using Nat.strong_induction_on with
  | _ n ih =>
    intro c hc
    by_cases h : n < 10
    · rw [natToStr_lt10 n h] at hc
      simp only [List.mem_singleton] at hc
      exact hc ▸ digitCh_isDigit n h
    · have h10 : 10 ≤ n := Nat.le_of_not_lt h
      rw [natToStr_ge10 n h10] at hc
      rcases List.mem_append.mp hc with h1 | h1
      · exact ih (n / 10) (Nat.div_lt_self (by omega) (by decide)) c h1
      · simp only [List.mem_singleton] at h1
        exact h1 ▸ digitCh_isDigit (n % 10) (Nat.mod_lt n (by decide))

theorem isDigit_ne_dash {c : Char} (h : isDigitC c = true) : ¬ c = '-' := by
  intro hc
  subst hc
  exact absurd h (by decide)

theorem dropWhile_all_append {p : Char → Bool} :
    ∀ xs ys : List Char, (∀ c ∈ xs, p c = true) → (xs ++ ys).dropWhile p = ys.dropWhile p := by
  intro xs
  induction xs with
  | nil => intro ys _; rfl
  | cons c r ih =>
    intro ys h
    have hc : p c = true := h c (by simp)
    simp only [List.cons_append, List.dropWhile_cons, hc, if_true]
    exact ih ys (fun x hx => h x (by simp [hx]))

/-! ### The validator `"<size>-<time>"` determines its time component -/

theorem etagTime_mkEtag (len t : Nat) : etagTime (mkEtag len t) = t := by
  have hsh : mkEtag len t = ('"' :: natToStr len) ++ ('-' :: (natToStr t ++ ['"'])) := by
    simp [mkEtag]
  have hdw : (mkEtag len t).dropWhile (fun c => ¬ c = '-') = '-' :: (natToStr t ++ ['"']) := by
    rw [hsh, dropWhile_all_append]
    · simp [List.dropWhile_cons]
    · intro c hc
      rcases List.mem_cons.mp hc with h1 | h1
      · simp [h1]
      · simp [isDigit_ne_dash (natToStr_digits len c h1)]
  simp only [etagTime, hdw, List.drop_one, List.tail_cons]
  rw [List.dropLast_concat, natToStr_parse]

theorem mkEtag_time_inj {l1 t1 l2 t2 : Nat} (h : mkEtag l1 t1 = mkEtag l2 t2) : t1 = t2 := by
  have := congrArg etagTime h
  rwa [etagTime_mkEtag, etagTime_mkEtag] at this

/-! ### Association-list maps -/

theorem alookup_aset_self (k : String) (v : α) :
    ∀ m : List (String × α), alookup k (aset k v m) = some v := by
  intro m
  induction m with
  | nil => simp [aset, alookup]
  | cons p r ih =>
    by_cases h : p.1 = k
    · simp [aset, alookup, h]
    · simp [aset, alookup, h, ih]

theorem alookup_aset_other (k k' : String) (v : α) (h : ¬ k' = k) :
    ∀ m : List (String × α), alookup k' (aset k v m) = alookup k' m := by
  intro m
  induction m with
  | nil =>
    have h' : ¬ k = k' := fun hh => h hh.symm
    simp [aset, alookup, h']
  | cons p r ih =>
    by_cases hp : p.1 = k
    · have hp' : ¬ k = k' := fun hh => h hh.symm
      simp [aset, alookup, hp, hp']
    · simp only [aset, hp, if_false]
      by_cases hk' : p.1 = k'
      · simp [alookup, hk']
      · simp [alookup, hk', ih]

theorem aset_aset_self (k : String) (v : α) :
    ∀ m : List (String × α), aset k v (aset k v m) = aset k v m := by
  intro m
  induction m with
  | nil => simp [aset]
  | cons p r ih =>
    by_cases h : p.1 = k
    · simp [aset, h]
    · simp [aset, h, ih]

/-! ### Claim C9 -/

/-- C9 (corrected): `MockFileSystem::create_directory` succeeds and afterwards
the directory exists, but it is not state-preserving on an existing directory:
the listing at `path` is reset to the empty vector (file contents and every
other listing are untouched), and only repeating the call is a no-op. -/
theorem claim_C9_make_directory_resets (fs : MockFS) (path : String) :
    (fs.create_directory path).files = fs.files
    ∧ (fs.create_directory path).list_directory path = []
    ∧ (∀ q, ¬ q = path → (fs.create_directory path).list_directory q = fs.list_directory q)
    ∧ (fs.create_directory path).create_directory path = fs.create_directory path := by
  refine ⟨rfl, ?_, ?_, ?_⟩
  · simp [MockFS.list_directory, MockFS.create_directory, alookup_aset_self]
  · intro q hq
    simp [MockFS.list_directory, MockFS.create_directory, alookup_aset_other path q [] hq]
  · simp [MockFS.create_directory, aset_aset_self]

/-- C9 witness: the theorem applied to a concrete filesystem state. -/
theorem claim_C9_make_directory_resets_witness :
    ((MockFS.mk [("/d/f", "x")] [("/d", ["f"])]).create_directory "/d").list_directory "/e"
      = (MockFS.mk [("/d/f", "x")] [("/d", ["f"])]).list_directory "/e" :=
  (claim_C9_make_directory_resets (MockFS.mk [("/d/f", "x")] [("/d", ["f"])]) "/d").2.2.1
    "/e" (by decide)

/-- C9 counterexample: after `write_file "/d/f"` the listing of `"/d"` is
`["f"]`, and a further `create_directory "/d"` erases it — the filesystem state
is not left unchanged, refuting the claim as stated. -/
theorem claim_C9_counterexample :
    (((MockFS.mk [] []).write_file "/d/f" "x").create_directory "/d").list_directory "/d" = []
    ∧ ((MockFS.mk [] []).write_file "/d/f" "x").list_directory "/d" = ["f"]
    ∧ ¬ ([] : List String) = ["f"] :=
  ⟨rfl, rfl, by decide⟩

/-! ### Claim C4 -/

theorem crudIds_mem (i : Int) :
    ∀ files : List (List Char),
      i ∈ crudIds files ↔ ∃ f ∈ files, stoiQ f = some i ∧ 0 < i := by
  intro files
  induction files with
  | nil => simp [crudIds]
  | cons f r ih =>
    rw [show crudIds (f :: r) =
      (match stoiQ f with
       | some j => if 0 < j then j :: crudIds r else crudIds r
       | none => crudIds r) from rfl]
    rcases hf : stoiQ f with _ | j
    · simp only
      rw [ih]
      constructor
      · rintro ⟨g, hg, hgs, hgp⟩
        exact ⟨g, by simp [hg], hgs, hgp⟩
      · rintro ⟨g, hg, hgs, hgp⟩
        rcases (by simpa using hg : g = f ∨ g ∈ r) with rfl | hg'
        · rw [hf] at hgs; cases hgs
        · exact ⟨g, hg', hgs, hgp⟩
    · by_cases hp : 0 < j
      · simp only [hp, if_true, List.mem_cons]
        constructor
        · rintro (rfl | hi)
          · exact ⟨f, by simp, hf, hp⟩
          · rcases ih.mp hi with ⟨g, hg, hgs, hgp⟩
            exact ⟨g, by simp [hg], hgs, hgp⟩
        · rintro ⟨g, hg, hgs, hgp⟩
          rcases (by simpa using hg : g = f ∨ g ∈ r) with rfl | hg'
          · rw [hf] at hgs
            exact Or.inl (Option.some.inj hgs).symm
          · exact Or.inr (ih.mpr ⟨g, hg', hgs, hgp⟩)
      · simp only [hp, if_false]
        rw [ih]
        constructor
        · rintro ⟨g, hg, hgs, hgp⟩
          exact ⟨g, by simp [hg], hgs, hgp⟩
        · rintro ⟨g, hg, hgs, hgp⟩
          rcases (by simpa using hg : g = f ∨ g ∈ r) with rfl | hg'
          · rw [hf] at hgs
            exact absurd ((Option.some.inj hgs) ▸ hgp) hp
          · exact ⟨g, hg', hgs, hgp⟩

theorem maxElem_nil (x : Int) : maxElem x [] = x := rfl

theorem maxElem_cons (x y : Int) (t : List Int) : maxElem x (y :: t) = maxElem (max x y) t := rfl

theorem maxElem_self : ∀ (r : List Int) (x : Int), x ≤ maxElem x r := by
  intro r
  induction r with
  | nil => intro x; exact le_refl x
  | cons y t ih =>
    intro x
    rw [maxElem_cons]
    exact le_trans (le_max_left x y) (ih (max x y))

theorem maxElem_ub : ∀ (r : List Int) (x y : Int), y ∈ r → y ≤ maxElem x r := by
  intro r
  induction r with
  | nil => intro x y hy; cases hy
  | cons z t ih =>
    intro x y hy
    rw [maxElem_cons]
    rcases List.mem_cons.mp hy with rfl | hy'
    · exact le_trans (le_max_right x y) (maxElem_self t (max x y))
    · exact ih (max x z) y hy'

theorem maxElem_mem : ∀ (r : List Int) (x : Int), maxElem x r = x ∨ maxElem x r ∈ r := by
  intro r
  induction r with
  | nil => intro x; exact Or.inl rfl
  | cons y t ih =>
    intro x
    rw [maxElem_cons]
    rcases ih (max x y) with h | h
    · rcases max_choice x y with hm | hm
      · exact Or.inl (h.trans hm)
      · rw [h, hm]
        exact Or.inr (by simp)
    · exact Or.inr (by simp [h])

theorem natToStr_eq_one {m : Nat} (h : natToStr m = ['1']) : m = 1 := by
  have := natToStr_parse m
  rw [h] at this
  simpa [valAcc_cons, valAcc_nil] using this.symm

theorem intToStr_ge_two_ne_one {i : Int} (h : 2 ≤ i) : ¬ intToStr i = ['1'] := by
  intro he
  have hneg : ¬ i < 0 := by omega
  rw [intToStr, if_neg hneg] at he
  have := natToStr_eq_one he
  omega

/-- C4 (corrected): `generate_id` returns `"1"` exactly when the directory is
missing or no filename `stoi`-parses to a *positive* value, and otherwise
returns one more than the largest positive `stoi`-parsed value (note `stoi`
parses an optional-sign leading digit run, ignoring trailing characters);
a directory listing `5`, `10`, `2` thus yields `11` (see the witness). -/
theorem claim_C4_generate_id_amended (ex : Bool) (files : List (List Char)) :
    (generate_id ex files = ['1'] ↔
      (ex = false ∨ ∀ f ∈ files, ∀ i : Int, stoiQ f = some i → i ≤ 0))
    ∧ ∀ n : Int, ex = true → (∃ f ∈ files, stoiQ f = some n) → 0 < n →
        (∀ f ∈ files, ∀ m : Int, stoiQ f = some m → m ≤ n) →
        generate_id ex files = intToStr (n + 1) := by
  cases ex with
  | false =>
    constructor
    · simp [generate_id]
    · intro n hx
      cases hx
  | true =>
    have hgen : generate_id true files =
        (match crudIds files with
         | [] => ['1']
         | x :: r => intToStr (maxElem x r + 1)) := rfl
    constructor
    · rcases hcr : crudIds files with _ | ⟨x, r⟩
      · rw [hgen, hcr]
        constructor
        · intro _
          right
          intro f hf i hi
          by_contra hpos
          have : i ∈ crudIds files := (crudIds_mem i files).mpr ⟨f, hf, hi, by omega⟩
          rw [hcr] at this
          cases this
        · intro _
          rfl
      · rw [hgen, hcr]
        show intToStr (maxElem x r + 1) = ['1'] ↔ _
        have hmax_mem : maxElem x r ∈ crudIds files := by
          rw [hcr]
          rcases maxElem_mem r x with h | h
          · simp [h]
          · simp [h]
        rcases (crudIds_mem (maxElem x r) files).mp hmax_mem with ⟨g, hg, hgs, hgp⟩
        constructor
        · intro h1
          exact absurd h1 (intToStr_ge_two_ne_one (by omega))
        · rintro (h | h)
          · cases h
          · exact absurd (h g hg (maxElem x r) hgs) (by omega)
    · intro n _ hex hpos hub
      have hn_mem : n ∈ crudIds files := (crudIds_mem n files).mpr ⟨hex.choose,
        hex.choose_spec.1, hex.choose_spec.2, hpos⟩
      rcases hcr : crudIds files with _ | ⟨x, r⟩
      · rw [hcr] at hn_mem; cases hn_mem
      · rw [hgen, hcr]
        show intToStr (maxElem x r + 1) = intToStr (n + 1)
        have hmax_mem : maxElem x r ∈ crudIds files := by
          rw [hcr]
          rcases maxElem_mem r x with h | h
          · simp [h]
          · simp [h]
        rcases (crudIds_mem (maxElem x r) files).mp hmax_mem with ⟨g, hg, hgs, _⟩
        have hle : maxElem x r ≤ n := hub g hg (maxElem x r) hgs
        have hge : n ≤ maxElem x r := by
          rw [hcr] at hn_mem
          rcases List.mem_cons.mp hn_mem with rfl | hmem
          · exact maxElem_self r n
          · exact maxElem_ub r x n hmem
        rw [le_antisymm hle hge]

/-- C4 witness: a directory listing `5`, `10`, `2` yields id `11`. -/
theorem claim_C4_generate_id_amended_witness :
    generate_id true ["5".toList, "10".toList, "2".toList] = "11".toList := by
  have h := (claim_C4_generate_id_amended true ["5".toList, "10".toList, "2".toList]).2 10 rfl
    ⟨"10".toList, by decide, by decide⟩ (by decide) ?ub
  case ub =>
    intro f hf m hm
    simp only [List.mem_cons, List.not_mem_nil, or_false] at hf
    rcases hf with rfl | rfl | rfl
    · rw [show stoiQ "5".toList = some 5 from rfl] at hm
      rw [← Option.some.inj hm]; decide
    · rw [show stoiQ "10".toList = some 10 from rfl] at hm
      rw [← Option.some.inj hm]
    · rw [show stoiQ "2".toList = some 2 from rfl] at hm
      rw [← Option.some.inj hm]; decide
  rw [h]
  decide

/-- C4 counterexample: the file named `-2` is integer-parseable, so the claim
predicts next id `-2 + 1 = -1`, but `generate_id` (which keeps only positive
parses) returns `1`. -/
theorem claim_C4_counterexample :
    generate_id true ["-2".toList] = "1".toList
    ∧ specIntParse "-2".toList = some (-2)
    ∧ intToStr (-2 + 1) = "-1".toList
    ∧ ¬ ("1".toList = "-1".toList) :=
  ⟨rfl, rfl, rfl, by decide⟩

/-! ### Claim C10 -/

theorem isPre_append : ∀ p r : List Char, isPre p (p ++ r) = true := by
  intro p
  induction p with
  | nil => intro r; rfl
  | cons c t ih =>
    intro r
    show (c = c && isPre t (t ++ r)) = true
    simp [ih r]

theorem takeWhile_noslash :
    ∀ T : List Char, (∀ c ∈ T, ¬ c = '/') →
      T.takeWhile (fun c => decide (¬ c = '/')) = T
      ∧ (T ++ ['/']).takeWhile (fun c => decide (¬ c = '/')) = T := by
  intro T
  induction T with
  | nil =>
    intro _
    refine ⟨rfl, ?_⟩
    show List.takeWhile _ ['/'] = []
    rw [List.takeWhile_cons]
    rw [show (decide (¬ ('/' : Char) = '/')) = false from by decide]
    simp
  | cons c t ih =>
    intro h
    have hcb : decide (¬ c = '/') = true := by simpa using h c (by simp)
    have iht := ih (fun x hx => h x (by simp [hx]))
    refine ⟨?_, ?_⟩
    · rw [List.takeWhile_cons, hcb, if_pos rfl, iht.1]
    · rw [List.cons_append, List.takeWhile_cons, hcb, if_pos rfl, iht.2]

theorem parse_path_slash_cons (T : List Char) :
    parse_path ('/' :: T) =
      if T = [] then ([], none)
      else if T.takeWhile (fun c => decide (¬ c = '/')) = [] then ([], none)
      else
        match T.drop (T.takeWhile (fun c => decide (¬ c = '/'))).length with
        | [] => (T.takeWhile (fun c => decide (¬ c = '/')), none)
        | _ :: after =>
          match after with
          | [] => (T.takeWhile (fun c => decide (¬ c = '/')), none)
          | _ :: _ =>
            if after.contains '/' then ([], none)
            else (T.takeWhile (fun c => decide (¬ c = '/')), some after) := rfl

theorem parse_path_type_only (T : List Char) (h1 : T ≠ []) (h2 : ∀ c ∈ T, ¬ c = '/') :
    parse_path ('/' :: T) = (T, none) ∧ parse_path ('/' :: (T ++ ['/'])) = (T, none) := by
  have htw := takeWhile_noslash T h2
  constructor
  · rw [parse_path_slash_cons, if_neg h1, htw.1, if_neg h1, List.drop_length]
  · have hd : (T ++ ['/']).drop T.length = ['/'] := by
      simpa using List.drop_left T ['/']
    rw [parse_path_slash_cons, if_neg (by simp : ¬ T ++ ['/'] = []), htw.2, if_neg h1, hd]

/-- C10 (confirmed): a CRUD target of the form `prefix/<Type>/` parses to the
entity type with no ID, so a GET returns the collection listing exactly as
without the trailing slash, while PUT and DELETE are answered 400 for a
missing ID. -/
theorem claim_C10_trailing_slash (fs : FsIface) (hpost : List Char → CResp)
    (hput hdel : List Char → List Char → CResp) (pfx dataPath T : List Char)
    (h1 : T ≠ []) (h2 : ∀ c ∈ T, ¬ c = '/') :
    crudHandle fs hpost hput hdel pfx dataPath .get (pfx ++ '/' :: (T ++ ['/'])) =
      handle_get fs dataPath T none
    ∧ crudHandle fs hpost hput hdel pfx dataPath .get (pfx ++ '/' :: T) =
      handle_get fs dataPath T none
    ∧ crudHandle fs hpost hput hdel pfx dataPath .put (pfx ++ '/' :: (T ++ ['/'])) = crudPutNoId
    ∧ crudHandle fs hpost hput hdel pfx dataPath .delete (pfx ++ '/' :: (T ++ ['/']))
      = crudDeleteNoId := by
  have hpp := parse_path_type_only T h1 h2
  have e1 : isPre pfx (pfx ++ '/' :: (T ++ ['/'])) = true := isPre_append pfx _
  have e1' : isPre pfx (pfx ++ '/' :: T) = true := isPre_append pfx _
  have e2 : (pfx ++ '/' :: (T ++ ['/'])).drop pfx.length = '/' :: (T ++ ['/']) := by
    simpa using List.drop_left pfx ('/' :: (T ++ ['/']))
  have e2' : (pfx ++ '/' :: T).drop pfx.length = '/' :: T := by
    simpa using List.drop_left pfx ('/' :: T)
  refine ⟨?_, ?_, ?_, ?_⟩
  · simp only [crudHandle, e1, if_true, e2, hpp.2]
    simp [h1]
  · simp only [crudHandle, e1', if_true, e2', hpp.1]
    simp [h1]
  · simp only [crudHandle, e1, if_true, e2, hpp.2]
    simp [h1]
  · simp only [crudHandle, e1, if_true, e2, hpp.2]
    simp [h1]

/-- C10 witness: the theorem at `prefix = "/crud"`, `Type = "Items"`. -/
theorem claim_C10_trailing_slash_witness :
    crudHandle fsW hpostW hputW hdelW "/crud".toList "./d".toList .put
      ("/crud".toList ++ '/' :: ("Items".toList ++ ['/'])) = crudPutNoId :=
  (claim_C10_trailing_slash fsW hpostW hputW hdelW "/crud".toList "./d".toList
    "Items".toList (by decide) (by decide)).2.2.1

/-! ### Claim C3 -/

/-- C3 (corrected): for responses that enter `maybe_compress_response` with
Content-Length equal to the body length (the invariant handlers establish via
`prepare_payload`), the equality still holds on exit; the body is replaced by
the gzip output, `Content-Encoding: gzip` set and Content-Length updated
exactly when the client accepts gzip, the body exceeds 1024 bytes and no
Content-Encoding is present; when compression fails, or any condition fails,
the response is left entirely unchanged.  The invariant is not unconditional:
see the counterexample for a 304 that enters and leaves without any
Content-Length. -/
theorem claim_C3_post_process_amended (gz : List Char → Option (List Char)) (req : GReq) (res : GResp)
    (hin : res.contentLength = some res.body.length) :
    (maybeCompress gz req res).contentLength = some (maybeCompress gz req res).body.length
    ∧ (maybeCompress gz req res).status = res.status
    ∧ (∀ c, wantsGzip req = true → 1024 < res.body.length → res.contentEncoding = none →
        gz res.body = some c →
        maybeCompress gz req res =
          { res with
            body := c
            contentEncoding := some "gzip".toList
            contentLength := some c.length })
    ∧ (gz res.body = none → maybeCompress gz req res = res)
    ∧ (¬ (wantsGzip req = true ∧ 1024 < res.body.length ∧ res.contentEncoding = none) →
        maybeCompress gz req res = res) := by
  by_cases hcond :
      (wantsGzip req && decide (1024 < res.body.length) && res.contentEncoding.isNone) = true
  · have hprops : wantsGzip req = true ∧ 1024 < res.body.length ∧ res.contentEncoding = none := by
      simpa [Bool.and_eq_true, Option.isNone_iff_eq_none, and_assoc] using hcond
    rcases hgz : gz res.body with _ | c
    · have hmc : maybeCompress gz req res = res := by
        simp [maybeCompress, hcond, hgz]
      refine ⟨by rw [hmc, hin], by rw [hmc], ?_, fun _ => hmc, fun _ => hmc⟩
      intro c' _ _ _ hc'
      cases hc'
    · have hmc : maybeCompress gz req res =
          { res with
            body := c
            contentEncoding := some "gzip".toList
            contentLength := some c.length } := by
        simp [maybeCompress, hcond, hgz]
      refine ⟨by rw [hmc], by rw [hmc], ?_, ?_, ?_⟩
      · intro c' _ _ _ hc'
        rw [hmc, Option.some.inj hc']
      · intro hnone
        cases hnone
      · intro hnc
        exact absurd hprops hnc
  · have hmc : maybeCompress gz req res = res := by
      simp only [maybeCompress, hcond]
      rfl
    refine ⟨by rw [hmc, hin], by rw [hmc], ?_, fun _ => hmc, fun _ => hmc⟩
    intro c hw hlen hce _
    exact absurd (by simp [hw, hlen, hce, Option.isNone_iff_eq_none]) hcond

/-- C3 witness: a 1025-byte body with `Accept-Encoding: deflate, gzip` is
compressed; the oracle output replaces the body and Content-Length. -/
theorem claim_C3_post_process_amended_witness :
    maybeCompress gzW reqW resW =
      { resW with
        body := ['z']
        contentEncoding := some "gzip".toList
        contentLength := some 1 } := by
  have h := (claim_C3_post_process_amended gzW reqW resW (by simp [resW])).2.2.1 ['z']
    (by decide) (by simp [resW]) rfl rfl
  simpa using h

/-- C3 counterexample: a Markdown 304 (empty body, `prepare_payload` never
called, so no Content-Length) passes through `maybe_compress_response`
unchanged even for a gzip-accepting client, and leaves the post-processing
step with no Content-Length at all — so Content-Length does not equal the
body length for every response leaving post-processing. -/
theorem claim_C3_counterexample :
    maybeCompress gzW reqW res304W = res304W ∧
      ¬ (maybeCompress gzW reqW res304W).contentLength =
        some (maybeCompress gzW reqW res304W).body.length := by
  decide

/-! ### Claim C6 -/

theorem static_guard_some {rootDir path p : List Char}
    (h : (if containsSub ['.', '.'] path || ¬ isPre rootDir path then none else some path)
      = some p) :
    isPre rootDir p = true ∧ containsSub ['.', '.'] p = false := by
  split_ifs at h with hg
  · obtain rfl := Option.some.inj h
    have hg2 : (containsSub ['.', '.'] path || decide (¬ isPre rootDir path = true)) = false := by
      revert hg
      cases hb : (containsSub ['.', '.'] path || decide (¬ isPre rootDir path = true)) <;> simp
    rcases Bool.or_eq_false_iff.mp hg2 with ⟨ha, hb⟩
    exact ⟨not_not.mp (of_decide_eq_false hb), ha⟩

/-- C6 (confirmed): whenever the static handler proceeds to open a file, the
concatenated filesystem path begins textually with the configured root and
contains no `..`; any decoded target failing that guard is answered 404 with
no file access (`staticOpenPath` returns `none`). -/
theorem claim_C6_static_traversal_guard (pfx rootDir target p : List Char)
    (h : staticOpenPath pfx rootDir target = some p) :
    isPre rootDir p = true ∧ containsSub ['.', '.'] p = false := by
  simp only [staticOpenPath] at h
  by_cases hp : isPre pfx (urlDecode target) = true
  · rw [if_pos hp] at h
    exact static_guard_some h
  · rw [if_neg hp] at h
    cases h

/-- C6 witness: a benign request inside the root. -/
theorem claim_C6_static_traversal_guard_witness :
    isPre "/tmp/r".toList "/tmp/r/x.txt".toList = true
    ∧ containsSub ['.', '.'] "/tmp/r/x.txt".toList = false :=
  claim_C6_static_traversal_guard "/s".toList "/tmp/r".toList "/s/x.txt".toList
    "/tmp/r/x.txt".toList rfl

/-! ### Claim C5 -/

/-- C5 (corrected): for an existing regular `.md` file the handler answers 304
with ETag and Last-Modified and an empty body when `If-None-Match` equals the
strong ETag, or when `If-None-Match` is absent and `If-Modified-Since` equals
Last-Modified; a present-but-stale `If-None-Match` suppresses the
`If-Modified-Since` comparison (`else if` in the source), so the plain
disjunction of the original claim fails. -/
theorem claim_C5_conditional_get_amended (inm ims : Option (List Char)) (size mtime : Nat)
    (lm : List Char) :
    (inm = some (mkEtag size mtime) →
      mdConditional ⟨inm, ims⟩ (mkEtag size mtime) lm =
        some ⟨304, some (mkEtag size mtime), some lm, []⟩)
    ∧ (inm = none → ims = some lm →
      mdConditional ⟨inm, ims⟩ (mkEtag size mtime) lm =
        some ⟨304, some (mkEtag size mtime), some lm, []⟩)
    ∧ (∀ v, inm = some v → ¬ v = mkEtag size mtime →
      mdConditional ⟨inm, ims⟩ (mkEtag size mtime) lm = none) := by
  refine ⟨?_, ?_, ?_⟩
  · rintro rfl
    simp [mdConditional, mdSend304]
  · rintro rfl rfl
    simp [mdConditional, mdSend304]
  · rintro v rfl hne
    simp [mdConditional, mdSend304, hne]

/-- C5 witness: with no `If-None-Match`, a matching `If-Modified-Since` yields
the 304 response carrying both validators and no body. -/
theorem claim_C5_conditional_get_amended_witness :
    mdConditional ⟨none, some "Thu, 01 May 2025 00:00:00 GMT".toList⟩ (mkEtag 3 100)
        "Thu, 01 May 2025 00:00:00 GMT".toList =
      some ⟨304, some (mkEtag 3 100), some "Thu, 01 May 2025 00:00:00 GMT".toList, []⟩ :=
  (claim_C5_conditional_get_amended none (some "Thu, 01 May 2025 00:00:00 GMT".toList) 3 100
    "Thu, 01 May 2025 00:00:00 GMT".toList).2.1 rfl rfl

/-- C5 counterexample: a request carrying a stale `If-None-Match` (`"x"`) and an
`If-Modified-Since` equal to Last-Modified satisfies the claim's disjunction,
yet the handler does not answer 304 (`mdConditional` continues). -/
theorem claim_C5_counterexample :
    specSend304 ⟨some "x".toList, some "Thu, 01 May 2025 00:00:00 GMT".toList⟩
        (mkEtag 3 100) "Thu, 01 May 2025 00:00:00 GMT".toList = true
    ∧ mdConditional ⟨some "x".toList, some "Thu, 01 May 2025 00:00:00 GMT".toList⟩
        (mkEtag 3 100) "Thu, 01 May 2025 00:00:00 GMT".toList = none :=
  ⟨rfl, rfl⟩

/-! ### Claim C8 -/

/-- C8 (corrected): two directory listings within 5 seconds of each other serve
the identical cached ETag; but two listings more than 5 seconds apart produce
different ETags *unconditionally* — the ETag embeds the render time
(`"<byte_length>-<epoch_seconds>"`), so it changes even when the directory
content is unchanged, refuting the claimed "iff the directory changed". -/
theorem claim_C8_dir_cache_amended (t1 t2 : Nat) (page1 lm1 page2 lm2 : List Char) :
    (t2 - t1 < 5 →
      (dirCacheStep (dirCacheStep none t1 page1 lm1).2 t2 page2 lm2).1
        = (dirCacheStep none t1 page1 lm1).1)
    ∧ (t1 ≤ t2 → 5 ≤ t2 - t1 →
      (dirCacheStep (dirCacheStep none t1 page1 lm1).2 t2 page2 lm2).1
          = mkEtag page2.length t2
        ∧ (dirCacheStep none t1 page1 lm1).1 = mkEtag page1.length t1
        ∧ ¬ (dirCacheStep (dirCacheStep none t1 page1 lm1).2 t2 page2 lm2).1
            = (dirCacheStep none t1 page1 lm1).1) := by
  have hstep : ∀ (e : DirCacheEntry) (now : Nat) (page lm : List Char),
      dirCacheStep (some e) now page lm =
        if now - e.saved < 5 then (e.etag, some e)
        else (mkEtag page.length now,
          some { html := page, etag := mkEtag page.length now, lastModified := lm,
                 saved := now }) := fun _ _ _ _ => rfl
  have h1 : (dirCacheStep none t1 page1 lm1).1 = mkEtag page1.length t1 := rfl
  have h2 : (dirCacheStep none t1 page1 lm1).2 =
      some { html := page1, etag := mkEtag page1.length t1, lastModified := lm1,
             saved := t1 } := rfl
  constructor
  · intro hlt
    rw [h1, h2, hstep, if_pos (show t2 - t1 < 5 from hlt)]
  · intro hle h5
    have hnlt : ¬ t2 - t1 < 5 := by omega
    have h3 : (dirCacheStep (dirCacheStep none t1 page1 lm1).2 t2 page2 lm2).1
        = mkEtag page2.length t2 := by
      rw [h2, hstep, if_neg (show ¬ t2 - t1 < 5 from hnlt)]
    refine ⟨h3, h1, ?_⟩
    rw [h3, h1]
    intro heq
    have := mkEtag_time_inj heq
    omega

/-- C8 witness: two listings of the unchanged directory 3 seconds apart serve
the identical ETag from the cache. -/
theorem claim_C8_dir_cache_amended_witness :
    (dirCacheStep (dirCacheStep none 100 "p".toList "L".toList).2 103 "p".toList "L".toList).1
      = (dirCacheStep none 100 "p".toList "L".toList).1 :=
  (claim_C8_dir_cache_amended 100 103 "p".toList "L".toList "p".toList "L".toList).1 (by decide)

/-- C8 counterexample: the same unchanged directory rendered at epoch 100 and
epoch 106 (more than 5 seconds later) gets the ETags `"1-100"` and `"1-106"`,
which differ although nothing changed — refuting "different iff changed". -/
theorem claim_C8_counterexample :
    (dirCacheStep none 100 "p".toList "L".toList).1 = "\"1-100\"".toList
    ∧ (dirCacheStep (dirCacheStep none 100 "p".toList "L".toList).2 106 "p".toList
        "L".toList).1 = "\"1-106\"".toList
    ∧ ¬ ("\"1-100\"".toList = "\"1-106\"".toList) :=
  ⟨rfl, rfl, by decide⟩

/-! ### Sortedness of the routing table -/

/-- The ordering relation behind `lenGe`, at the `Prop` level. -/
def LenGeP (a b : RMapping) : Prop :=
  b.1.length ≤ a.1.length

theorem insertBy_mem (x : RMapping) :
    ∀ (l : List RMapping) (z : RMapping), z ∈ insertBy lenGe x l ↔ z = x ∨ z ∈ l := by
  intro l
  induction l with
  | nil => intro z; simp [insertBy]
  | cons y r ih =>
    intro z
    show z ∈ (if lenGe x y then x :: y :: r else y :: insertBy lenGe x r) ↔ _
    by_cases h : lenGe x y
    · rw [if_pos h]
      simp
    · rw [if_neg h]
      simp [ih]
      tauto

theorem sortBy_mem :
    ∀ (l : List RMapping) (z : RMapping), z ∈ sortBy lenGe l ↔ z ∈ l := by
  intro l
  induction l with
  | nil => intro z; simp [sortBy]
  | cons y r ih =>
    intro z
    show z ∈ insertBy lenGe y (sortBy lenGe r) ↔ _
    rw [insertBy_mem, ih]
    simp

theorem insertBy_pairwise (x : RMapping) :
    ∀ l : List RMapping, List.Pairwise LenGeP l → List.Pairwise LenGeP (insertBy lenGe x l) := by
  intro l
  induction l with
  | nil => intro _; simp [insertBy, List.pairwise_singleton]
  | cons y r ih =>
    intro hp
    rcases List.pairwise_cons.mp hp with ⟨hy, hr⟩
    show List.Pairwise LenGeP (if lenGe x y then x :: y :: r else y :: insertBy lenGe x r)
    by_cases h : lenGe x y
    · rw [if_pos h]
      have hxy : LenGeP x y := by simpa [lenGe, LenGeP] using h
      refine List.pairwise_cons.mpr ⟨?_, hp⟩
      intro z hz
      rcases List.mem_cons.mp hz with rfl | hz'
      · exact hxy
      · exact le_trans (hy z hz') hxy
    · rw [if_neg h]
      have hyx : LenGeP y x := by
        simp only [lenGe, decide_eq_true_eq] at h
        simp only [LenGeP]
        omega
      refine List.pairwise_cons.mpr ⟨?_, ih hr⟩
      intro z hz
      rcases (insertBy_mem x r z).mp hz with rfl | hz'
      · exact hyx
      · exact hy z hz'

theorem sortBy_pairwise :
    ∀ l : List RMapping, List.Pairwise LenGeP (sortBy lenGe l) := by
  intro l
  induction l with
  | nil => simp [sortBy]
  | cons y r ih => exact insertBy_pairwise y (sortBy lenGe r) ih

/-! ### `Match` on the sorted table -/

theorem regMatch_some (uri : List Char) :
    ∀ (l : List RMapping) (m : RMapping),
      regMatch l uri = some m → m ∈ l ∧ isPre m.1 uri = true := by
  intro l
  induction l with
  | nil => intro m h; cases h
  | cons y r ih =>
    intro m h
    show _ ∧ _
    by_cases hy : isPre y.1 uri = true
    · rw [show regMatch (y :: r) uri = if isPre y.1 uri then some y else regMatch r uri from rfl,
        hy, if_pos rfl] at h
      obtain rfl := Option.some.inj h
      exact ⟨by simp, hy⟩
    · rw [show regMatch (y :: r) uri = if isPre y.1 uri then some y else regMatch r uri from rfl,
        if_neg (by simpa using hy)] at h
      rcases ih m h with ⟨hm, hpre⟩
      exact ⟨by simp [hm], hpre⟩

theorem regMatch_longest (uri : List Char) :
    ∀ (l : List RMapping) (m : RMapping), List.Pairwise LenGeP l →
      regMatch l uri = some m →
      ∀ m' ∈ l, isPre m'.1 uri = true → m'.1.length ≤ m.1.length := by
  intro l
  induction l with
  | nil => intro m _ h; cases h
  | cons y r ih =>
    intro m hp h m' hm' hpre'
    rcases List.pairwise_cons.mp hp with ⟨hy, hr⟩
    by_cases hym : isPre y.1 uri = true
    · rw [show regMatch (y :: r) uri = if isPre y.1 uri then some y else regMatch r uri from rfl,
        hym, if_pos rfl] at h
      obtain rfl := Option.some.inj h
      rcases List.mem_cons.mp hm' with rfl | hm''
      · exact le_refl _
      · exact hy m' hm''
    · rw [show regMatch (y :: r) uri = if isPre y.1 uri then some y else regMatch r uri from rfl,
        if_neg (by simpa using hym)] at h
      rcases List.mem_cons.mp hm' with rfl | hm''
      · exact absurd hpre' hym
      · exact ih m hr h m' hm'' hpre'

theorem regMatch_none_iff (uri : List Char) :
    ∀ l : List RMapping, regMatch l uri = none ↔ ∀ m' ∈ l, isPre m'.1 uri = false := by
  intro l
  induction l with
  | nil => simp [regMatch]
  | cons y r ih =>
    rw [show regMatch (y :: r) uri = if isPre y.1 uri then some y else regMatch r uri from rfl]
    by_cases hy : isPre y.1 uri = true
    · rw [hy, if_pos rfl]
      constructor
      · intro h; cases h
      · intro h
        have := h y (by simp)
        rw [hy] at this
        cases this
    · rw [if_neg (by simpa using hy)]
      rw [ih]
      constructor
      · intro h m' hm'
        rcases List.mem_cons.mp hm' with rfl | hm''
        · simpa using hy
        · exact h m' hm''
      · intro h m' hm'
        exact h m' (by simp [hm'])

/-! ### Claim C1 -/

/-- C1 (corrected): for every routing table built by `Init` (sorted by
descending prefix length), `Match(uri)` returns a mapping whose prefix is a
textual prefix of the URI of maximal length among all matching mappings; when
no mapping's prefix is a prefix of the URI it returns no factory at all
(`nullptr`, embedded as `none`) — not a NotFound sentinel. -/
theorem claim_C1_match_longest_or_null (cfg : NStmts) (table : List RMapping) (uri : List Char)
    (h : regInit cfg = some table) :
    (∀ m, regMatch table uri = some m →
      m ∈ table ∧ isPre m.1 uri = true
      ∧ ∀ m' ∈ table, isPre m'.1 uri = true → m'.1.length ≤ m.1.length)
    ∧ (regMatch table uri = none ↔ ∀ m' ∈ table, isPre m'.1 uri = false) := by
  have hsorted : List.Pairwise LenGeP table := by
    rcases Option.map_eq_some'.mp h with ⟨raw, _, hmap⟩
    rw [← hmap]
    exact sortBy_pairwise raw
  constructor
  · intro m hm
    rcases regMatch_some uri table m hm with ⟨hmem, hpre⟩
    exact ⟨hmem, hpre, regMatch_longest uri table m hsorted hm⟩
  · exact regMatch_none_iff uri table

/-- C1 witness: the theorem at the table of `location /echo EchoHandler {}`
and URI `/echo/x`. -/
theorem claim_C1_match_longest_or_null_witness :
    ("/echo".toList, HSpec.echoH "/echo".toList)
        ∈ [("/echo".toList, HSpec.echoH "/echo".toList)]
      ∧ isPre "/echo".toList "/echo/x".toList = true
      ∧ ∀ m' ∈ [("/echo".toList, HSpec.echoH "/echo".toList)],
          isPre m'.1 "/echo/x".toList = true → m'.1.length ≤ "/echo".toList.length :=
  (claim_C1_match_longest_or_null cfgEchoW [("/echo".toList, HSpec.echoH "/echo".toList)]
    "/echo/x".toList rfl).1 ("/echo".toList, HSpec.echoH "/echo".toList) rfl

/-- C1 counterexample: for the table built from `location /echo EchoHandler {}`
the URI `/x` matches no mapping, and `Match` returns nothing (`nullptr`) —
there is no sentinel factory producing a NotFound handler, refuting that part
of the claim. -/
theorem claim_C1_counterexample :
    regInit cfgEchoW = some [("/echo".toList, HSpec.echoH "/echo".toList)]
    ∧ regMatch [("/echo".toList, HSpec.echoH "/echo".toList)] "/x".toList = none :=
  ⟨rfl, rfl⟩

/-! ### Claim C7 -/

/-- C7 (corrected): `Init` performs no CrudHandler block validation at all — a
`location <prefix> CrudHandler { ... }` whose child block lacks `data_path`
(indeed, with any child block whatsoever) passes validation: `Init` returns
true and binds the registered zero-argument archetype factory, which ignores
the block and uses its built-in defaults. -/
theorem claim_C7_crud_block_not_validated (pfx : List Char) (blk : NStmts)
    (h1 : ¬ pfx = []) (h2 : pfx.headD ' ' = '/')
    (h3 : ¬ (1 < pfx.length ∧ pfx.getLast? = some '/')) :
    regInit (.cons (.mk ["location".toList, pfx, "CrudHandler".toList] (.block blk)) .nil)
      = some [(pfx, .generic "CrudHandler".toList)] := by
  have hfirst :
      ¬ (([ "location".toList, pfx, "CrudHandler".toList ] : List (List Char)).length < 3
        ∨ ([ "location".toList, pfx, "CrudHandler".toList ] : List (List Char)).headD []
          ≠ "location".toList) := by
    simp
  have hpfx : ¬ (pfx = [] ∨ pfx.headD ' ' ≠ '/') := by
    rintro (h | h)
    · exact h1 h
    · exact h h2
  have e1 : regInitLoop
      (.cons (.mk ["location".toList, pfx, "CrudHandler".toList] (.block blk)) .nil) []
      = some [(pfx, .generic "CrudHandler".toList)] := by
    show (if _ ∨ _ then _ else _) = _
    rw [if_neg hfirst]
    have hg1 : (["location".toList, pfx, "CrudHandler".toList] : List (List Char)).getD 1 []
        = pfx := rfl
    have hg2 : (["location".toList, pfx, "CrudHandler".toList] : List (List Char)).getD 2 []
        = "CrudHandler".toList := rfl
    rw [hg1, hg2]
    dsimp only
    rw [if_neg hpfx, if_neg h3]
    rw [show (([] : List RMapping).any fun m => m.1 = pfx) = false from rfl]
    rw [if_neg (show ¬ (false = true) by simp)]
    rw [if_neg (show ¬ ¬ (registeredTypes.contains ("CrudHandler".toList) = true) by decide)]
    rw [if_neg (show ¬ ("CrudHandler".toList = "StaticHandler".toList) by decide)]
    rw [if_neg (show ¬ ("CrudHandler".toList = "EchoHandler".toList) by decide)]
    rfl
  rw [regInit, e1]
  rfl

/-- C7 witness: `location /api CrudHandler { root /x; }` — a block with no
`data_path` directive — is accepted by `Init`. -/
theorem claim_C7_crud_block_not_validated_witness :
    regInit (.cons (.mk ["location".toList, "/api".toList, "CrudHandler".toList]
        (.block (.cons (.mk ["root".toList, "/x".toList] .leaf) .nil))) .nil)
      = some [("/api".toList, .generic "CrudHandler".toList)] :=
  claim_C7_crud_block_not_validated "/api".toList
    (.cons (.mk ["root".toList, "/x".toList] .leaf) .nil) (by decide) (by decide) (by decide)

/-! ### C2: the parse loop unfolds one token at a time -/

theorem parseLoopF_step (fuel : Nat) (s : List Char) (l : TokKind) (st : List NStmts) :
    parseLoopF (fuel + 1) s l st =
      match lexToken s with
      | (.error, _, _) => none
      | (.start, _, _) => none
      | (.comment, _, s') => parseLoopF fuel s' l st
      | (.normal, v, s') =>
        if pushAllowed l then
          match st with
          | top :: r =>
            if l = .normal then parseLoopF fuel s' .normal (mapLastS (addTok v) top :: r)
            else parseLoopF fuel s' .normal (snocS top (.mk [v] .leaf) :: r)
          | [] => none
        else none
      | (.quoted, v, s') =>
        if pushAllowed l then
          match st with
          | top :: r =>
            if l = .normal then parseLoopF fuel s' .quoted (mapLastS (addTok v) top :: r)
            else parseLoopF fuel s' .quoted (snocS top (.mk [v] .leaf) :: r)
          | [] => none
        else none
      | (.statementEnd, _, s') =>
        if l = .normal || l = .quoted then parseLoopF fuel s' .statementEnd st else none
      | (.startBlock, _, s') =>
        if l = .normal || l = .quoted then parseLoopF fuel s' .startBlock (.nil :: st)
        else none
      | (.endBlock, _, s') =>
        if l = .statementEnd || l = .endBlock || l = .startBlock then
          match st with
          | top :: parent :: r => parseLoopF fuel s' .endBlock (mapLastS (setChild top) parent :: r)
          | _ => none
        else none
      | (.eof, v, _) =>
        if v ≠ [] then none
        else if l = .start || l = .statementEnd || l = .endBlock then
          match st with
          | [top] => some top
          | _ => none
        else none := rfl

theorem parseLoopF_ge : ∀ (n : Nat) (s : List Char) (f : Nat) (l : TokKind) (st : List NStmts),
    s.length < n → s.length < f → parseLoopF f s l st = parseLoop s l st := by
  intro n
  induction n with
  | zero => intro s f l st hn; exact absurd hn (Nat.not_lt_zero _)
  | succ n ih =>
    intro s f l st hn hf
    obtain ⟨fuel, rfl⟩ : ∃ m, f = m + 1 := ⟨f - 1, by omega⟩
    rw [parseLoop, parseLoopF_step, parseLoopF_step]
    rcases hlex : lexToken s with ⟨k, v, s'⟩
    have hrest : k ≠ TokKind.eof → s'.length < s.length := by
      intro hk
      have h1 := lexToken_rest_lt s (by rw [hlex]; exact hk)
      rwa [hlex] at h1
    cases k with
    | error => rfl
    | start => rfl
    | eof => rfl
    | comment =>
      have h2 := hrest (by decide)
      dsimp only
      rw [ih s' fuel l st (by omega) (by omega), ih s' s.length l st (by omega) (by omega)]
    | normal =>
      have h2 := hrest (by decide)
      dsimp only
      rcases st with _ | ⟨top, r⟩
      · rfl
      · dsimp only
        split_ifs with h1 h2'
        · rw [ih s' fuel _ _ (by omega) (by omega), ih s' s.length _ _ (by omega) (by omega)]
        · rw [ih s' fuel _ _ (by omega) (by omega), ih s' s.length _ _ (by omega) (by omega)]
        · rfl
    | quoted =>
      have h2 := hrest (by decide)
      dsimp only
      rcases st with _ | ⟨top, r⟩
      · rfl
      · dsimp only
        split_ifs with h1 h2'
        · rw [ih s' fuel _ _ (by omega) (by omega), ih s' s.length _ _ (by omega) (by omega)]
        · rw [ih s' fuel _ _ (by omega) (by omega), ih s' s.length _ _ (by omega) (by omega)]
        · rfl
    | statementEnd =>
      have h2 := hrest (by decide)
      dsimp only
      split_ifs with h1
      · rw [ih s' fuel _ _ (by omega) (by omega), ih s' s.length _ _ (by omega) (by omega)]
      · rfl
    | startBlock =>
      have h2 := hrest (by decide)
      dsimp only
      split_ifs with h1
      · rw [ih s' fuel _ _ (by omega) (by omega), ih s' s.length _ _ (by omega) (by omega)]
      · rfl
    | endBlock =>
      have h2 := hrest (by decide)
      dsimp only
      rcases st with _ | ⟨top, r2⟩
      · rfl
      rcases r2 with _ | ⟨parent, r⟩
      · rfl
      · dsimp only
        split_ifs with h1
        · rw [ih s' fuel _ _ (by omega) (by omega), ih s' s.length _ _ (by omega) (by omega)]
        · rfl

theorem parseLoop_eq (s : List Char) (l : TokKind) (st : List NStmts) :
    parseLoop s l st = parseStep s l st := by
  rw [parseLoop, parseLoopF_step]
  unfold parseStep
  rcases hlex : lexToken s with ⟨k, v, s'⟩
  have hrest : k ≠ TokKind.eof → s'.length < s.length := by
    intro hk
    have h1 := lexToken_rest_lt s (by rw [hlex]; exact hk)
    rwa [hlex] at h1
  cases k with
  | error => rfl
  | start => rfl
  | eof => rfl
  | comment =>
    have h2 := hrest (by decide)
    dsimp only
    exact parseLoopF_ge (s'.length + 1) s' s.length l st (by omega) (by omega)
  | normal =>
    have h2 := hrest (by decide)
    dsimp only
    rcases st with _ | ⟨top, r⟩
    · rfl
    · dsimp only
      split_ifs with h1 h2'
      · exact parseLoopF_ge (s'.length + 1) s' s.length _ _ (by omega) (by omega)
      · exact parseLoopF_ge (s'.length + 1) s' s.length _ _ (by omega) (by omega)
      · rfl
  | quoted =>
    have h2 := hrest (by decide)
    dsimp only
    rcases st with _ | ⟨top, r⟩
    · rfl
    · dsimp only
      split_ifs with h1 h2'
      · exact parseLoopF_ge (s'.length + 1) s' s.length _ _ (by omega) (by omega)
      · exact parseLoopF_ge (s'.length + 1) s' s.length _ _ (by omega) (by omega)
      · rfl
  | statementEnd =>
    have h2 := hrest (by decide)
    dsimp only
    split_ifs with h1
    · exact parseLoopF_ge (s'.length + 1) s' s.length _ _ (by omega) (by omega)
    · rfl
  | startBlock =>
    have h2 := hrest (by decide)
    dsimp only
    split_ifs with h1
    · exact parseLoopF_ge (s'.length + 1) s' s.length _ _ (by omega) (by omega)
    · rfl
  | endBlock =>
    have h2 := hrest (by decide)
    dsimp only
    rcases st with _ | ⟨top, r2⟩
    · rfl
    rcases r2 with _ | ⟨parent, r⟩
    · rfl
    · dsimp only
      split_ifs with h1
      · exact parseLoopF_ge (s'.length + 1) s' s.length _ _ (by omega) (by omega)
      · rfl

/-! ### C2: reading back a stored token -/

theorem normalDelim_startForbidden {c : Char} (h : isNormalDelim c = true) :
    startForbidden c = true := by
  rw [isNormalDelim] at h
  rw [startForbidden, isWS]
  simp only [Bool.or_eq_true, decide_eq_true_eq] at h ⊢
  tauto

theorem not_forb_not_delim {c : Char} (h : startForbidden c = false) :
    isNormalDelim c = false := by
  cases hd : isNormalDelim c
  · rfl
  · rw [normalDelim_startForbidden hd] at h
    exact h

theorem all_not_delim_append {t : List Char} {c : Char}
    (h : t.all (fun x => !isNormalDelim x) = true) (hc : isNormalDelim c = false) :
    (t ++ [c]).all (fun x => !isNormalDelim x) = true := by
  rw [List.all_append, h]
  simp [hc]

theorem okNormalTok_snoc {t : List Char} {c : Char} (h : okNormalTok t = true)
    (hc : isNormalDelim c = false) : okNormalTok (t ++ [c]) = true := by
  rcases t with _ | ⟨a, r⟩
  · simp [okNormalTok] at h
  · have e1 : okNormalTok (a :: r) =
        (!startForbidden a && (a :: r).all fun x => !isNormalDelim x) := rfl
    have e2 : okNormalTok ((a :: r) ++ [c]) =
        (!startForbidden a && ((a :: r) ++ [c]).all fun x => !isNormalDelim x) := rfl
    rw [e1, Bool.and_eq_true] at h
    rw [e2, Bool.and_eq_true]
    exact ⟨h.1, all_not_delim_append h.2 hc⟩

theorem lexNormal_run (d : Char) (w : List Char) (hd : isNormalDelim d = true) :
    ∀ (u : List Char), (∀ c ∈ u, isNormalDelim c = false) →
      ∀ acc, lexNormal (u ++ d :: w) acc = (.normal, acc ++ u, d :: w) := by
  intro u
  induction u with
  | nil =>
    intro _ acc
    simp only [List.nil_append, lexNormal]
    simp [hd]
  | cons c u' ih =>
    intro hu acc
    have hc : isNormalDelim c = false := hu c (by simp)
    simp only [List.cons_append, lexNormal]
    rw [if_neg (by simp [hc])]
    rw [List.append_eq]
    rw [ih (fun x hx => hu x (by simp [hx])) (acc ++ [c])]
    simp

theorem lexToken_not_forbidden {c : Char} (h : startForbidden c = false) (u : List Char) :
    lexToken (c :: u) = lexNormal u [c] := by
  simp only [startForbidden, isWS, Bool.or_eq_false_iff, decide_eq_false_iff_not] at h
  obtain ⟨⟨⟨⟨⟨⟨h1, h2⟩, h3⟩, h4⟩, h5⟩, h6⟩, ⟨⟨⟨w1, w2⟩, w3⟩, w4⟩⟩ := h
  have hw : isWS c = false := by simp [isWS, w1, w2, w3, w4]
  simp only [lexToken]
  rw [if_neg h1, if_neg h2, if_neg h3, if_neg h4, if_neg h5, if_neg h6,
    if_neg (by simp [hw])]

theorem lexToken_normal_tok {t : List Char} (ht : okNormalTok t = true) {d : Char}
    (hd : isNormalDelim d = true) (w : List Char) :
    lexToken (t ++ d :: w) = (.normal, t, d :: w) := by
  rcases t with _ | ⟨c, u⟩
  · simp [okNormalTok] at ht
  · have e : okNormalTok (c :: u) =
        (!startForbidden c && (c :: u).all fun x => !isNormalDelim x) := rfl
    rw [e, Bool.and_eq_true] at ht
    have hforb : startForbidden c = false := by simpa using ht.1
    rw [List.cons_append, lexToken_not_forbidden hforb]
    have hall : ∀ x ∈ u, isNormalDelim x = false := by
      intro x hx
      have h2 := ht.2
      rw [List.all_cons, Bool.and_eq_true] at h2
      have h3 := h2.2
      rw [List.all_eq_true] at h3
      simpa using h3 x hx
    rw [lexNormal_run d w hd u hall [c]]
    simp

theorem lexQuote_runF (q : Char) : ∀ (n : Nat) (tail : List Char), tail.length < n →
    ∀ (acc : List Char) (d : Char) (w : List Char), closedTail q tail = true →
      isQuoteDelim d = true →
      lexQuote q (tail ++ d :: w) acc = (.quoted, acc ++ tail, d :: w) := by
  intro n
  induction n with
  | zero => intro tail h; exact absurd h (Nat.not_lt_zero _)
  | succ n ih =>
    intro tail hn acc d w hct hd
    rcases tail with _ | ⟨c, rest⟩
    · simp [closedTail] at hct
    · rw [closedTail.eq_def] at hct
      dsimp only at hct
      rw [List.cons_append, lexQuote.eq_def]
      dsimp only
      by_cases hb : c = '\\'
      · rw [if_pos hb]
        rw [if_pos hb] at hct
        rcases rest with _ | ⟨e, rest'⟩
        · simp at hct
        · dsimp only at hct
          rw [List.cons_append]
          dsimp only
          rw [ih rest' (by simp only [List.length_cons] at hn; omega)
            (acc ++ [c] ++ [e]) d w hct hd]
          simp
      · rw [if_neg hb]
        rw [if_neg hb] at hct
        by_cases hq : c = q
        · rw [if_pos hq]
          rw [if_pos hq] at hct
          have hre : rest = [] := by simpa using hct
          subst hre
          dsimp only [List.nil_append]
          rw [if_pos hd]
        · rw [if_neg hq]
          rw [if_neg hq] at hct
          rw [ih rest (by simp only [List.length_cons] at hn; omega) (acc ++ [c]) d w hct hd]
          simp

theorem lexQuote_run (q : Char) (tail acc : List Char) (d : Char) (w : List Char)
    (hct : closedTail q tail = true) (hd : isQuoteDelim d = true) :
    lexQuote q (tail ++ d :: w) acc = (.quoted, acc ++ tail, d :: w) :=
  lexQuote_runF q (tail.length + 1) tail (by omega) acc d w hct hd

theorem lexToken_quoted_tok {t : List Char} (ht : okQuotedTok t = true) {d : Char}
    (hd : isQuoteDelim d = true) (w : List Char) :
    lexToken (t ++ d :: w) = (.quoted, t, d :: w) := by
  rcases t with _ | ⟨c, tail⟩
  · simp [okQuotedTok] at ht
  · have e : okQuotedTok (c :: tail) = ((c = '"' || c = '\'') && closedTail c tail) := rfl
    rw [e, Bool.and_eq_true] at ht
    have hq : c = '"' ∨ c = '\'' := by simpa using ht.1
    have hct := ht.2
    rw [List.cons_append]
    rcases hq with rfl | rfl
    · rw [show lexToken ('"' :: (tail ++ d :: w)) = lexQuote '"' (tail ++ d :: w) ['"'] from rfl]
      rw [lexQuote_run '"' tail ['"'] d w hct hd]
      simp
    · rw [show lexToken ('\'' :: (tail ++ d :: w)) =
          lexQuote '\'' (tail ++ d :: w) ['\''] from rfl]
      rw [lexQuote_run '\'' tail ['\''] d w hct hd]
      simp

/-! ### C2: one parse-loop step for each shape of input -/

theorem parseLoop_ws {c : Char} (h : isWS c = true) (s : List Char) (l : TokKind)
    (st : List NStmts) : parseLoop (c :: s) l st = parseLoop s l st := by
  rw [parseLoop_eq, parseLoop_eq]
  rw [isWS] at h
  simp only [Bool.or_eq_true, decide_eq_true_eq] at h
  rcases h with ((rfl | rfl) | rfl) | rfl <;> rfl

theorem parseLoop_ws_all : ∀ (ws : List Char), (∀ c ∈ ws, isWS c = true) →
    ∀ (s : List Char) (l : TokKind) (st : List NStmts),
      parseLoop (ws ++ s) l st = parseLoop s l st := by
  intro ws
  induction ws with
  | nil => intro _ s l st; rw [List.nil_append]
  | cons c w ih =>
    intro h s l st
    rw [List.cons_append, parseLoop_ws (h c (by simp)), ih (fun x hx => h x (by simp [hx]))]

theorem indent_ws (d : Nat) : ∀ c ∈ indentCh d, isWS c = true := by
  intro c hc
  rw [indentCh] at hc
  rw [List.eq_of_mem_replicate hc]
  rfl

theorem parseLoop_semi (u : List Char) (l : TokKind) (st : List NStmts)
    (h : l = TokKind.normal ∨ l = TokKind.quoted) :
    parseLoop (';' :: u) l st = parseLoop u .statementEnd st := by
  rw [parseLoop_eq]
  rcases h with rfl | rfl <;> rfl

theorem parseLoop_openB (u : List Char) (l : TokKind) (st : List NStmts)
    (h : l = TokKind.normal ∨ l = TokKind.quoted) :
    parseLoop ('\x7b' :: u) l st = parseLoop u .startBlock (.nil :: st) := by
  rw [parseLoop_eq]
  rcases h with rfl | rfl <;> rfl

theorem parseLoop_closeB (u : List Char) (l : TokKind) (top parent : NStmts)
    (r : List NStmts)
    (h : l = TokKind.statementEnd ∨ l = TokKind.endBlock ∨ l = TokKind.startBlock) :
    parseLoop ('\x7d' :: u) l (top :: parent :: r) =
      parseLoop u .endBlock (mapLastS (setChild top) parent :: r) := by
  rw [parseLoop_eq]
  rcases h with rfl | rfl | rfl <;> rfl

theorem parseLoop_eof (l : TokKind) (top : NStmts)
    (h : l = TokKind.start ∨ l = TokKind.statementEnd ∨ l = TokKind.endBlock) :
    parseLoop [] l [top] = some top := by
  rcases h with rfl | rfl | rfl <;> rfl

theorem parseLoop_normal_new {t : List Char} (ht : okNormalTok t = true) {d : Char}
    (hd : isNormalDelim d = true) (u : List Char) {l : TokKind}
    (hp : pushAllowed l = true) (hl : ¬ l = TokKind.normal) (top : NStmts)
    (r : List NStmts) :
    parseLoop (t ++ d :: u) l (top :: r) =
      parseLoop (d :: u) .normal (snocS top (.mk [t] .leaf) :: r) := by
  rw [parseLoop_eq]
  unfold parseStep
  rw [lexToken_normal_tok ht hd u]
  dsimp only
  rw [if_pos hp, if_neg hl]

theorem parseLoop_normal_app {t : List Char} (ht : okNormalTok t = true) {d : Char}
    (hd : isNormalDelim d = true) (u : List Char) (top : NStmts) (r : List NStmts) :
    parseLoop (t ++ d :: u) .normal (top :: r) =
      parseLoop (d :: u) .normal (mapLastS (addTok t) top :: r) := by
  rw [parseLoop_eq]
  unfold parseStep
  rw [lexToken_normal_tok ht hd u]
  dsimp only
  rw [if_pos (show pushAllowed TokKind.normal = true by decide),
    if_pos (rfl : TokKind.normal = TokKind.normal)]

theorem parseLoop_quoted_new {t : List Char} (ht : okQuotedTok t = true) {d : Char}
    (hd : isQuoteDelim d = true) (u : List Char) {l : TokKind}
    (hp : pushAllowed l = true) (hl : ¬ l = TokKind.normal) (top : NStmts)
    (r : List NStmts) :
    parseLoop (t ++ d :: u) l (top :: r) =
      parseLoop (d :: u) .quoted (snocS top (.mk [t] .leaf) :: r) := by
  rw [parseLoop_eq]
  unfold parseStep
  rw [lexToken_quoted_tok ht hd u]
  dsimp only
  rw [if_pos hp, if_neg hl]

theorem parseLoop_quoted_app {t : List Char} (ht : okQuotedTok t = true) {d : Char}
    (hd : isQuoteDelim d = true) (u : List Char) (top : NStmts) (r : List NStmts) :
    parseLoop (t ++ d :: u) .normal (top :: r) =
      parseLoop (d :: u) .quoted (mapLastS (addTok t) top :: r) := by
  rw [parseLoop_eq]
  unfold parseStep
  rw [lexToken_quoted_tok ht hd u]
  dsimp only
  rw [if_pos (show pushAllowed TokKind.normal = true by decide),
    if_pos (rfl : TokKind.normal = TokKind.normal)]

theorem betweenTok_push {l : TokKind} (h : BetweenTok l) : pushAllowed l = true := by
  rcases h with rfl | rfl | rfl | rfl <;> rfl

theorem betweenTok_ne_normal {l : TokKind} (h : BetweenTok l) : ¬ l = TokKind.normal := by
  rcases h with rfl | rfl | rfl | rfl <;> decide

theorem stmtEndKind_between (s : NStmt) : BetweenTok (stmtEndKind s) := by
  rcases s with ⟨ts, c⟩
  rcases c with _ | b
  · exact Or.inr (Or.inl rfl)
  · exact Or.inr (Or.inr (Or.inl rfl))

theorem nextLast_cases : ∀ (t : NStmts) (lk : TokKind),
    nextLast lk t = lk ∨ nextLast lk t = TokKind.statementEnd ∨
      nextLast lk t = TokKind.endBlock
  | .nil, lk => Or.inl rfl
  | .cons s t, lk => by
    have h := nextLast_cases t (stmtEndKind s)
    rw [show nextLast lk (.cons s t) = nextLast (stmtEndKind s) t from rfl]
    rcases h with he | he | he
    · rw [he]
      rcases s with ⟨ts, c⟩
      rcases c with _ | b
      · exact Or.inr (Or.inl rfl)
      · exact Or.inr (Or.inr rfl)
    · exact Or.inr (Or.inl he)
    · exact Or.inr (Or.inr he)

theorem betweenTok_nextLast {lk : TokKind} (h : BetweenTok lk) (t : NStmts) :
    BetweenTok (nextLast lk t) := by
  rcases nextLast_cases t lk with he | he | he
  · rw [he]; exact h
  · rw [he]; exact Or.inr (Or.inl rfl)
  · rw [he]; exact Or.inr (Or.inr (Or.inl rfl))

theorem lastTokKind_ok : ∀ (ts : List (List Char)), okTokens ts = true →
    lastTokKind ts = TokKind.normal ∨ lastTokKind ts = TokKind.quoted
  | [], h => by simp [okTokens] at h
  | [t], h => by
    rw [show lastTokKind [t] = tokKindOf t from rfl, tokKindOf]
    by_cases hn : okNormalTok t = true
    · rw [if_pos hn]; exact Or.inl rfl
    · rw [if_neg hn]; exact Or.inr rfl
  | t :: t2 :: r, h => by
    rw [show lastTokKind (t :: t2 :: r) = lastTokKind (t2 :: r) from rfl]
    have h2 : okTokens (t2 :: r) = true := by
      rw [show okTokens (t :: t2 :: r) = (okNormalTok t && okTokens (t2 :: r)) from rfl,
        Bool.and_eq_true] at h
      exact h.2
    exact lastTokKind_ok (t2 :: r) h2

/-! ### C2: stack-shape bookkeeping -/

theorem mapLastS_snocS (f : NStmt → NStmt) : ∀ (a : NStmts) (s : NStmt),
    mapLastS f (snocS a s) = snocS a (f s)
  | .nil, s => rfl
  | .cons x .nil, s => rfl
  | .cons x (.cons y t), s => by
    show NStmts.cons x (mapLastS f (snocS (.cons y t) s)) = .cons x (snocS (.cons y t) (f s))
    rw [mapLastS_snocS f (.cons y t) s]

theorem appendS_nil_right : ∀ (a : NStmts), appendS a .nil = a
  | .nil => rfl
  | .cons s t => by
    rw [show appendS (.cons s t) .nil = .cons s (appendS t .nil) from rfl,
      appendS_nil_right t]

theorem appendS_snoc : ∀ (a : NStmts) (s : NStmt) (t : NStmts),
    appendS (snocS a s) t = appendS a (.cons s t)
  | .nil, s, t => rfl
  | .cons x a', s, t => by
    show NStmts.cons x (appendS (snocS a' s) t) = .cons x (appendS a' (.cons s t))
    rw [appendS_snoc a' s t]

theorem okQuoted_not_normal {t : List Char} (h : okQuotedTok t = true) :
    okNormalTok t = false := by
  rcases t with _ | ⟨c, tail⟩
  · rfl
  · have e : okQuotedTok (c :: tail) = ((c = '"' || c = '\'') && closedTail c tail) := rfl
    rw [e, Bool.and_eq_true] at h
    have hq : c = '"' ∨ c = '\'' := by simpa using h.1
    have e2 : okNormalTok (c :: tail) =
        (!startForbidden c && (c :: tail).all fun x => !isNormalDelim x) := rfl
    rw [e2]
    rcases hq with rfl | rfl <;> rfl

theorem parseLoop_toks_rest : ∀ (ts pre : List (List Char)) (d0 : Char) (u : List Char)
    (top : NStmts) (r : List NStmts), isNormalDelim d0 = true → isQuoteDelim d0 = true →
    okTokens ts = true →
    parseLoop (joinToks ts ++ d0 :: u) .normal (snocS top (.mk pre .leaf) :: r) =
      parseLoop (d0 :: u) (lastTokKind ts) (snocS top (.mk (pre ++ ts) .leaf) :: r)
  | [], pre, d0, u, top, r, hn, hq, h => by simp [okTokens] at h
  | [t], pre, d0, u, top, r, hn, hq, h => by
    rw [show joinToks [t] = t from rfl]
    have hok : okTok t = true := h
    rw [okTok, Bool.or_eq_true] at hok
    rcases hok with htn | htq
    · rw [parseLoop_normal_app htn hn u _ r]
      rw [mapLastS_snocS]
      rw [show addTok t (.mk pre .leaf) = .mk (pre ++ [t]) .leaf from rfl]
      rw [show lastTokKind [t] = tokKindOf t from rfl, tokKindOf, if_pos htn]
    · have htn' := okQuoted_not_normal htq
      rw [parseLoop_quoted_app htq hq u _ r]
      rw [mapLastS_snocS]
      rw [show addTok t (.mk pre .leaf) = .mk (pre ++ [t]) .leaf from rfl]
      rw [show lastTokKind [t] = tokKindOf t from rfl, tokKindOf, if_neg (by simp [htn'])]
  | t :: t2 :: ts2, pre, d0, u, top, r, hn, hq, h => by
    rw [show okTokens (t :: t2 :: ts2) = (okNormalTok t && okTokens (t2 :: ts2)) from rfl,
      Bool.and_eq_true] at h
    rw [show joinToks (t :: t2 :: ts2) = t ++ ' ' :: joinToks (t2 :: ts2) from rfl]
    rw [List.append_assoc, List.cons_append]
    rw [parseLoop_normal_app h.1 (show isNormalDelim ' ' = true by decide) _ _ r]
    rw [mapLastS_snocS]
    rw [show addTok t (.mk pre .leaf) = .mk (pre ++ [t]) .leaf from rfl]
    rw [parseLoop_ws (show isWS ' ' = true by decide)]
    rw [parseLoop_toks_rest (t2 :: ts2) (pre ++ [t]) d0 u top r hn hq h.2]
    rw [List.append_assoc, List.singleton_append]
    rfl

theorem parseLoop_toks : ∀ (ts : List (List Char)) (d0 : Char) (u : List Char)
    (l : TokKind) (top : NStmts) (r : List NStmts), isNormalDelim d0 = true →
    isQuoteDelim d0 = true → BetweenTok l → okTokens ts = true →
    parseLoop (joinToks ts ++ d0 :: u) l (top :: r) =
      parseLoop (d0 :: u) (lastTokKind ts) (snocS top (.mk ts .leaf) :: r)
  | [], d0, u, l, top, r, hn, hq, hb, h => by simp [okTokens] at h
  | [t], d0, u, l, top, r, hn, hq, hb, h => by
    rw [show joinToks [t] = t from rfl]
    have hok : okTok t = true := h
    rw [okTok, Bool.or_eq_true] at hok
    rcases hok with htn | htq
    · rw [parseLoop_normal_new htn hn u (betweenTok_push hb) (betweenTok_ne_normal hb) top r]
      rw [show lastTokKind [t] = tokKindOf t from rfl, tokKindOf, if_pos htn]
    · have htn' := okQuoted_not_normal htq
      rw [parseLoop_quoted_new htq hq u (betweenTok_push hb) (betweenTok_ne_normal hb) top r]
      rw [show lastTokKind [t] = tokKindOf t from rfl, tokKindOf, if_neg (by simp [htn'])]
  | t :: t2 :: ts2, d0, u, l, top, r, hn, hq, hb, h => by
    rw [show okTokens (t :: t2 :: ts2) = (okNormalTok t && okTokens (t2 :: ts2)) from rfl,
      Bool.and_eq_true] at h
    rw [show joinToks (t :: t2 :: ts2) = t ++ ' ' :: joinToks (t2 :: ts2) from rfl]
    rw [List.append_assoc, List.cons_append]
    rw [parseLoop_normal_new h.1 (show isNormalDelim ' ' = true by decide) _
      (betweenTok_push hb) (betweenTok_ne_normal hb) top r]
    rw [parseLoop_ws (show isWS ' ' = true by decide)]
    rw [parseLoop_toks_rest (t2 :: ts2) [t] d0 u top r hn hq h.2]
    rfl

/-! ### C2: re-parsing a serialized well-formed tree -/

mutual
theorem serStmt_resume : ∀ (s : NStmt) (d : Nat) (l : TokKind) (top : NStmts)
    (r : List NStmts) (rest : List Char), okStmt s = true → BetweenTok l →
    parseLoop (serStmt d s ++ rest) l (top :: r) =
      parseLoop rest (stmtEndKind s) (snocS top s :: r)
  | .mk ts child, d, l, top, r, rest, h, hb => by
    have h' : okTokens ts = true ∧ okChild child = true := by
      have e : okStmt (.mk ts child) = (okTokens ts && okChild child) := rfl
      rw [e, Bool.and_eq_true] at h
      exact h
    cases child with
    | leaf =>
      rw [show serStmt d (.mk ts .leaf) = indentCh d ++ joinToks ts ++ [';', '\n'] from rfl]
      simp only [List.append_assoc, List.cons_append, List.nil_append]
      rw [parseLoop_ws_all (indentCh d) (indent_ws d)]
      rw [parseLoop_toks ts ';' ('\n' :: rest) l top r (by decide) (by decide) hb h'.1]
      rw [parseLoop_semi _ _ _ (lastTokKind_ok ts h'.1)]
      rw [parseLoop_ws (show isWS '\n' = true by decide)]
      rfl
    | block b =>
      have hbk : okStmts b = true := h'.2
      rw [show serStmt d (.mk ts (.block b)) =
          indentCh d ++ joinToks ts ++
            (' ' :: '\x7b' :: '\n' ::
              (serStmts (d + 1) b ++ indentCh d ++ ['\x7d', '\n'])) from rfl]
      simp only [List.append_assoc, List.cons_append, List.nil_append]
      rw [parseLoop_ws_all (indentCh d) (indent_ws d)]
      rw [parseLoop_toks ts ' ' _ l top r (by decide) (by decide) hb h'.1]
      rw [parseLoop_ws (show isWS ' ' = true by decide)]
      rw [parseLoop_openB _ _ _ (lastTokKind_ok ts h'.1)]
      rw [parseLoop_ws (show isWS '\n' = true by decide)]
      rw [serStmts_resume b (d + 1) .startBlock .nil (snocS top (.mk ts .leaf) :: r) _ hbk
        (Or.inr (Or.inr (Or.inr rfl)))]
      rw [parseLoop_ws_all (indentCh d) (indent_ws d)]
      have hcl : nextLast TokKind.startBlock b = TokKind.statementEnd ∨
          nextLast TokKind.startBlock b = TokKind.endBlock ∨
          nextLast TokKind.startBlock b = TokKind.startBlock := by
        rcases nextLast_cases b TokKind.startBlock with he | he | he
        · exact Or.inr (Or.inr he)
        · exact Or.inl he
        · exact Or.inr (Or.inl he)
      rw [parseLoop_closeB _ _ _ _ _ hcl]
      rw [mapLastS_snocS]
      rw [parseLoop_ws (show isWS '\n' = true by decide)]
      rfl
theorem serStmts_resume : ∀ (t : NStmts) (d : Nat) (l : TokKind) (top : NStmts)
    (r : List NStmts) (rest : List Char), okStmts t = true → BetweenTok l →
    parseLoop (serStmts d t ++ rest) l (top :: r) =
      parseLoop rest (nextLast l t) (appendS top t :: r)
  | .nil, d, l, top, r, rest, h, hb => by
    rw [appendS_nil_right top]
    rw [show serStmts d NStmts.nil = ([] : List Char) from rfl, List.nil_append]
    rfl
  | .cons s t, d, l, top, r, rest, h, hb => by
    have h' : okStmt s = true ∧ okStmts t = true := by
      have e : okStmts (.cons s t) = (okStmt s && okStmts t) := rfl
      rw [e, Bool.and_eq_true] at h
      exact h
    rw [show serStmts d (.cons s t) = serStmt d s ++ serStmts d t from rfl,
      List.append_assoc]
    rw [serStmt_resume s d l top r _ h'.1 hb]
    rw [serStmts_resume t d (stmtEndKind s) (snocS top s) r rest h'.2 (stmtEndKind_between s)]
    rw [appendS_snoc top s t]
    rfl

end

/-! ### C2: the parse loop only builds well-formed trees -/

theorem allNormal_okTokens : ∀ (ts : List (List Char)), ts ≠ [] →
    ts.all okNormalTok = true → okTokens ts = true
  | [], h, _ => absurd rfl h
  | [t], _, ha => by
    rw [List.all_cons, List.all_nil, Bool.and_eq_true] at ha
    rw [show okTokens [t] = okTok t from rfl, okTok, ha.1]
    rfl
  | t :: t2 :: r, _, ha => by
    rw [List.all_cons, Bool.and_eq_true] at ha
    rw [show okTokens (t :: t2 :: r) = (okNormalTok t && okTokens (t2 :: r)) from rfl,
      ha.1, allNormal_okTokens (t2 :: r) (by simp) ha.2]
    rfl

theorem okTokens_snoc {v : List Char} (hv : okTok v = true) :
    ∀ (ts : List (List Char)), ts.all okNormalTok = true → okTokens (ts ++ [v]) = true
  | [], _ => by
    rw [List.nil_append, show okTokens [v] = okTok v from rfl]
    exact hv
  | [t], ha => by
    rw [List.all_cons, List.all_nil, Bool.and_eq_true] at ha
    rw [show ([t] ++ [v] : List (List Char)) = [t, v] from rfl,
      show okTokens [t, v] = (okNormalTok t && okTokens [v]) from rfl, ha.1,
      show okTokens [v] = okTok v from rfl, hv]
    rfl
  | t :: t2 :: r, ha => by
    rw [List.all_cons, Bool.and_eq_true] at ha
    rw [show ((t :: t2 :: r) ++ [v] : List (List Char)) = t :: ((t2 :: r) ++ [v]) from rfl]
    rw [show ((t2 :: r) ++ [v] : List (List Char)) = t2 :: (r ++ [v]) from rfl]
    rw [show okTokens (t :: t2 :: (r ++ [v])) =
        (okNormalTok t && okTokens (t2 :: (r ++ [v]))) from rfl, ha.1]
    have h2 := okTokens_snoc hv (t2 :: r) ha.2
    rw [show ((t2 :: r) ++ [v] : List (List Char)) = t2 :: (r ++ [v]) from rfl] at h2
    rw [h2]
    rfl

theorem lastOpen_okStmts : ∀ (f : NStmts), lastOpen f = true → okStmts f = true
  | .nil, h => by simp [lastOpen] at h
  | .cons (.mk ts c) .nil, h => by
    rcases c with _ | b
    · have e : lastOpen (.cons (.mk ts .leaf) .nil) = (okTokens ts && true) := rfl
      rw [e] at h
      have e2 : okStmts (.cons (.mk ts .leaf) .nil) = ((okTokens ts && true) && true) := rfl
      rw [e2, h]
      rfl
    · have e : lastOpen (.cons (.mk ts (.block b)) .nil) = (okTokens ts && false) := rfl
      rw [e] at h
      simp at h
  | .cons (.mk ts c) (.cons y t), h => by
    have e : lastOpen (.cons (.mk ts c) (.cons y t)) =
        (okStmt (.mk ts c) && lastOpen (.cons y t)) := rfl
    rw [e, Bool.and_eq_true] at h
    have e2 : okStmts (.cons (.mk ts c) (.cons y t)) =
        (okStmt (.mk ts c) && okStmts (.cons y t)) := rfl
    rw [e2, Bool.and_eq_true]
    exact ⟨h.1, lastOpen_okStmts (.cons y t) h.2⟩

theorem lastAllNormal_lastOpen : ∀ (f : NStmts), lastAllNormal f = true → lastOpen f = true
  | .nil, h => by simp [lastAllNormal] at h
  | .cons (.mk ts c) .nil, h => by
    rcases c with _ | b
    · have e : lastAllNormal (.cons (.mk ts .leaf) .nil) =
          (!ts.isEmpty && ts.all okNormalTok && true) := rfl
      rw [e, Bool.and_eq_true, Bool.and_eq_true] at h
      have e2 : lastOpen (.cons (.mk ts .leaf) .nil) = (okTokens ts && true) := rfl
      rw [e2, allNormal_okTokens ts (by simpa using h.1.1) h.1.2]
      rfl
    · have e : lastAllNormal (.cons (.mk ts (.block b)) .nil) =
          (!ts.isEmpty && ts.all okNormalTok && false) := rfl
      rw [e] at h
      simp at h
  | .cons (.mk ts c) (.cons y t), h => by
    have e : lastAllNormal (.cons (.mk ts c) (.cons y t)) =
        (okStmt (.mk ts c) && lastAllNormal (.cons y t)) := rfl
    rw [e, Bool.and_eq_true] at h
    have e2 : lastOpen (.cons (.mk ts c) (.cons y t)) =
        (okStmt (.mk ts c) && lastOpen (.cons y t)) := rfl
    rw [e2, Bool.and_eq_true]
    exact ⟨h.1, lastAllNormal_lastOpen (.cons y t) h.2⟩

theorem lastAllNormal_okStmts (f : NStmts) (h : lastAllNormal f = true) : okStmts f = true :=
  lastOpen_okStmts f (lastAllNormal_lastOpen f h)

theorem snocS_lastAllNormal {v : List Char} (hv : okNormalTok v = true) :
    ∀ (f : NStmts), okStmts f = true → lastAllNormal (snocS f (.mk [v] .leaf)) = true
  | .nil, _ => by
    rw [show snocS .nil (.mk [v] .leaf) = .cons (.mk [v] .leaf) .nil from rfl]
    have e : lastAllNormal (.cons (.mk [v] .leaf) .nil) =
        (!([v] : List (List Char)).isEmpty && ([v] : List (List Char)).all okNormalTok
          && true) := rfl
    rw [e]
    simp [hv]
  | .cons s t, h => by
    have e : okStmts (.cons s t) = (okStmt s && okStmts t) := rfl
    rw [e, Bool.and_eq_true] at h
    rw [show snocS (.cons s t) (.mk [v] .leaf) =
        .cons s (snocS t (.mk [v] .leaf)) from rfl]
    have h2 := snocS_lastAllNormal hv t h.2
    rcases t with _ | ⟨y, t'⟩
    · rcases s with ⟨ts, c⟩
      have e2 : lastAllNormal (.cons (.mk ts c) (snocS .nil (.mk [v] .leaf))) =
          (okStmt (.mk ts c) && lastAllNormal (snocS .nil (.mk [v] .leaf))) := rfl
      rw [e2, h.1, h2]
      rfl
    · rcases s with ⟨ts, c⟩
      have e2 : lastAllNormal (.cons (.mk ts c) (snocS (.cons y t') (.mk [v] .leaf))) =
          (okStmt (.mk ts c) && lastAllNormal (snocS (.cons y t') (.mk [v] .leaf))) := rfl
      rw [e2, h.1, h2]
      rfl

theorem snocS_lastOpen {v : List Char} (hv : okQuotedTok v = true) :
    ∀ (f : NStmts), okStmts f = true → lastOpen (snocS f (.mk [v] .leaf)) = true
  | .nil, _ => by
    rw [show snocS .nil (.mk [v] .leaf) = .cons (.mk [v] .leaf) .nil from rfl]
    have e : lastOpen (.cons (.mk [v] .leaf) .nil) =
        (okTokens [v] && true) := rfl
    rw [e, show okTokens [v] = okTok v from rfl, okTok, hv]
    simp
  | .cons s t, h => by
    have e : okStmts (.cons s t) = (okStmt s && okStmts t) := rfl
    rw [e, Bool.and_eq_true] at h
    rw [show snocS (.cons s t) (.mk [v] .leaf) =
        .cons s (snocS t (.mk [v] .leaf)) from rfl]
    have h2 := snocS_lastOpen hv t h.2
    rcases t with _ | ⟨y, t'⟩
    · rcases s with ⟨ts, c⟩
      have e2 : lastOpen (.cons (.mk ts c) (snocS .nil (.mk [v] .leaf))) =
          (okStmt (.mk ts c) && lastOpen (snocS .nil (.mk [v] .leaf))) := rfl
      rw [e2, h.1, h2]
      rfl
    · rcases s with ⟨ts, c⟩
      have e2 : lastOpen (.cons (.mk ts c) (snocS (.cons y t') (.mk [v] .leaf))) =
          (okStmt (.mk ts c) && lastOpen (snocS (.cons y t') (.mk [v] .leaf))) := rfl
      rw [e2, h.1, h2]
      rfl

theorem mapLast_addTok_normal {v : List Char} (hv : okNormalTok v = true) :
    ∀ (f : NStmts), lastAllNormal f = true →
      lastAllNormal (mapLastS (addTok v) f) = true
  | .nil, h => by simp [lastAllNormal] at h
  | .cons (.mk ts c) .nil, h => by
    rcases c with _ | b
    · have e : lastAllNormal (.cons (.mk ts .leaf) .nil) =
          (!ts.isEmpty && ts.all okNormalTok && true) := rfl
      rw [e, Bool.and_eq_true, Bool.and_eq_true] at h
      rw [show mapLastS (addTok v) (.cons (.mk ts .leaf) .nil) =
          .cons (.mk (ts ++ [v]) .leaf) .nil from rfl]
      have e2 : lastAllNormal (.cons (.mk (ts ++ [v]) .leaf) .nil) =
          (!(ts ++ [v]).isEmpty && (ts ++ [v]).all okNormalTok && true) := rfl
      rw [e2, List.all_append, h.1.2]
      simp [hv]
    · have e : lastAllNormal (.cons (.mk ts (.block b)) .nil) =
          (!ts.isEmpty && ts.all okNormalTok && false) := rfl
      rw [e] at h
      simp at h
  | .cons (.mk ts c) (.cons y t), h => by
    have e : lastAllNormal (.cons (.mk ts c) (.cons y t)) =
        (okStmt (.mk ts c) && lastAllNormal (.cons y t)) := rfl
    rw [e, Bool.and_eq_true] at h
    have h2 := mapLast_addTok_normal hv (.cons y t) h.2
    rw [show mapLastS (addTok v) (.cons (.mk ts c) (.cons y t)) =
        .cons (.mk ts c) (mapLastS (addTok v) (.cons y t)) from rfl]
    rcases hm : mapLastS (addTok v) (.cons y t) with _ | ⟨z, t'⟩
    · rw [hm] at h2
      simp [lastAllNormal] at h2
    · rw [hm] at h2
      have e2 : lastAllNormal (.cons (.mk ts c) (.cons z t')) =
          (okStmt (.mk ts c) && lastAllNormal (.cons z t')) := rfl
      rw [e2, h.1, h2]
      rfl

theorem mapLast_addTok_quoted {v : List Char} (hv : okQuotedTok v = true) :
    ∀ (f : NStmts), lastAllNormal f = true →
      lastOpen (mapLastS (addTok v) f) = true
  | .nil, h => by simp [lastAllNormal] at h
  | .cons (.mk ts c) .nil, h => by
    rcases c with _ | b
    · have e : lastAllNormal (.cons (.mk ts .leaf) .nil) =
          (!ts.isEmpty && ts.all okNormalTok && true) := rfl
      rw [e, Bool.and_eq_true, Bool.and_eq_true] at h
      rw [show mapLastS (addTok v) (.cons (.mk ts .leaf) .nil) =
          .cons (.mk (ts ++ [v]) .leaf) .nil from rfl]
      have e2 : lastOpen (.cons (.mk (ts ++ [v]) .leaf) .nil) =
          (okTokens (ts ++ [v]) && true) := rfl
      rw [e2, okTokens_snoc (by rw [okTok, hv]; simp) ts h.1.2]
      rfl
    · have e : lastAllNormal (.cons (.mk ts (.block b)) .nil) =
          (!ts.isEmpty && ts.all okNormalTok && false) := rfl
      rw [e] at h
      simp at h
  | .cons (.mk ts c) (.cons y t), h => by
    have e : lastAllNormal (.cons (.mk ts c) (.cons y t)) =
        (okStmt (.mk ts c) && lastAllNormal (.cons y t)) := rfl
    rw [e, Bool.and_eq_true] at h
    have h2 := mapLast_addTok_quoted hv (.cons y t) h.2
    rw [show mapLastS (addTok v) (.cons (.mk ts c) (.cons y t)) =
        .cons (.mk ts c) (mapLastS (addTok v) (.cons y t)) from rfl]
    rcases hm : mapLastS (addTok v) (.cons y t) with _ | ⟨z, t'⟩
    · rw [hm] at h2
      simp [lastOpen] at h2
    · rw [hm] at h2
      have e2 : lastOpen (.cons (.mk ts c) (.cons z t')) =
          (okStmt (.mk ts c) && lastOpen (.cons z t')) := rfl
      rw [e2, h.1, h2]
      rfl

theorem mapLast_setChild_ok {b : NStmts} (hb : okStmts b = true) :
    ∀ (f : NStmts), lastOpen f = true → okStmts (mapLastS (setChild b) f) = true
  | .nil, h => by simp [lastOpen] at h
  | .cons (.mk ts c) .nil, h => by
    rcases c with _ | b'
    · have e : lastOpen (.cons (.mk ts .leaf) .nil) = (okTokens ts && true) := rfl
      rw [e, Bool.and_eq_true] at h
      rw [show mapLastS (setChild b) (.cons (.mk ts .leaf) .nil) =
          .cons (.mk ts (.block b)) .nil from rfl]
      have e2 : okStmts (.cons (.mk ts (.block b)) .nil) =
          ((okTokens ts && okStmts b) && true) := rfl
      rw [e2, h.1, hb]
      rfl
    · have e : lastOpen (.cons (.mk ts (.block b')) .nil) = (okTokens ts && false) := rfl
      rw [e] at h
      simp at h
  | .cons (.mk ts c) (.cons y t), h => by
    have e : lastOpen (.cons (.mk ts c) (.cons y t)) =
        (okStmt (.mk ts c) && lastOpen (.cons y t)) := rfl
    rw [e, Bool.and_eq_true] at h
    have h2 := mapLast_setChild_ok hb (.cons y t) h.2
    rw [show mapLastS (setChild b) (.cons (.mk ts c) (.cons y t)) =
        .cons (.mk ts c) (mapLastS (setChild b) (.cons y t)) from rfl]
    rcases hm : mapLastS (setChild b) (.cons y t) with _ | ⟨z, t'⟩
    · exact absurd hm (by rcases t with _ | ⟨z, t'⟩ <;> simp [mapLastS])
    · rw [hm] at h2
      have e2 : okStmts (.cons (.mk ts c) (.cons z t')) =
          (okStmt (.mk ts c) && okStmts (.cons z t')) := rfl
      rw [e2, h.1, h2]
      rfl

/-! ### C2: classification of the tokens the lexer can emit -/

theorem lexComment_kind : ∀ (u acc : List Char),
    (lexComment u acc).1 = TokKind.comment ∨ (lexComment u acc).1 = TokKind.eof := by
  intro u
  induction u with
  | nil => intro acc; exact Or.inr rfl
  | cons c rest ih =>
    intro acc
    simp only [lexComment]
    by_cases h : (c = '\n' || c = '\r') = true
    · rw [if_pos h]; exact Or.inl rfl
    · rw [if_neg h]; exact ih (acc ++ [c])

theorem lexNormal_kind : ∀ (u acc : List Char),
    (lexNormal u acc).1 = TokKind.normal ∨ (lexNormal u acc).1 = TokKind.eof := by
  intro u
  induction u with
  | nil => intro acc; exact Or.inr rfl
  | cons c rest ih =>
    intro acc
    simp only [lexNormal]
    by_cases h : isNormalDelim c = true
    · rw [if_pos h]; exact Or.inl rfl
    · rw [if_neg h]; exact ih (acc ++ [c])

theorem lexQuote_kindF (q : Char) : ∀ (n : Nat) (u : List Char), u.length < n →
    ∀ acc, (lexQuote q u acc).1 = TokKind.quoted ∨ (lexQuote q u acc).1 = TokKind.error := by
  intro n
  induction n with
  | zero => intro u h; exact absurd h (Nat.not_lt_zero _)
  | succ n ih =>
    intro u hn acc
    rcases u with _ | ⟨c, rest⟩
    · exact Or.inr rfl
    · rw [lexQuote.eq_def]
      dsimp only
      by_cases hb : c = '\\'
      · rw [if_pos hb]
        rcases rest with _ | ⟨e, rest'⟩
        · exact Or.inr rfl
        · exact ih rest' (by simp only [List.length_cons] at hn; omega) _
      · rw [if_neg hb]
        by_cases hq : c = q
        · rw [if_pos hq]
          rcases rest with _ | ⟨e, rest'⟩
          · exact Or.inl rfl
          · dsimp only
            by_cases hd : isQuoteDelim e = true
            · rw [if_pos hd]; exact Or.inl rfl
            · rw [if_neg hd]; exact Or.inr rfl
        · rw [if_neg hq]
          exact ih rest (by simp only [List.length_cons] at hn; omega) (acc ++ [c])

theorem lexQuote_kind (q : Char) (u acc : List Char) :
    (lexQuote q u acc).1 = TokKind.quoted ∨ (lexQuote q u acc).1 = TokKind.error :=
  lexQuote_kindF q (u.length + 1) u (by omega) acc

theorem lexNormal_ok : ∀ (u acc v s' : List Char), okNormalTok acc = true →
    lexNormal u acc = (TokKind.normal, v, s') → okNormalTok v = true := by
  intro u
  induction u with
  | nil =>
    intro acc v s' ha he
    simp [lexNormal] at he
  | cons c rest ih =>
    intro acc v s' ha he
    simp only [lexNormal] at he
    by_cases h : isNormalDelim c = true
    · rw [if_pos h] at he
      simp only [Prod.mk.injEq] at he
      rw [← he.2.1]
      exact ha
    · rw [if_neg h] at he
      exact ih (acc ++ [c]) v s' (okNormalTok_snoc ha (by simpa using h)) he

theorem lexToken_normal_ok : ∀ (s v s' : List Char),
    lexToken s = (TokKind.normal, v, s') → okNormalTok v = true
  | [], v, s', h => by simp [lexToken] at h
  | c :: rest, v, s', h => by
    simp only [lexToken] at h
    split_ifs at h with h1 h2 h3 h4 h5 h6 h7
    · simp at h
    · simp at h
    · rcases lexComment_kind rest [c] with hk | hk <;> rw [h] at hk <;> simp at hk
    · rcases lexQuote_kind '"' rest [c] with hk | hk <;> rw [h] at hk <;> simp at hk
    · rcases lexQuote_kind '\'' rest [c] with hk | hk <;> rw [h] at hk <;> simp at hk
    · simp at h
    · exact lexToken_normal_ok rest v s' h
    · have hw : isWS c = false := by simpa using h7
      have hforb : startForbidden c = false := by
        rw [startForbidden]
        simp [h1, h2, h3, h4, h5, h6, hw]
      exact lexNormal_ok rest [c] v s'
        (by simp [okNormalTok, hforb, not_forb_not_delim hforb]) h

theorem lexQuote_closedF (q : Char) : ∀ (n : Nat) (u : List Char), u.length < n →
    ∀ (acc v s' : List Char), lexQuote q u acc = (TokKind.quoted, v, s') →
      ∃ t, v = acc ++ t ∧ closedTail q t = true := by
  intro n
  induction n with
  | zero => intro u h; exact absurd h (Nat.not_lt_zero _)
  | succ n ih =>
    intro u hn acc v s' h
    rcases u with _ | ⟨c, rest⟩
    · simp [lexQuote] at h
    · rw [lexQuote.eq_def] at h
      dsimp only at h
      by_cases hb : c = '\\'
      · rw [if_pos hb] at h
        rcases rest with _ | ⟨e, rest'⟩
        · simp at h
        · dsimp only at h
          obtain ⟨t, ht, hct⟩ := ih rest' (by simp only [List.length_cons] at hn; omega)
            (acc ++ [c] ++ [e]) v s' h
          refine ⟨c :: e :: t, ?_, ?_⟩
          · rw [ht]; simp
          · rw [closedTail.eq_def]
            dsimp only
            rw [if_pos hb]
            exact hct
      · rw [if_neg hb] at h
        by_cases hq : c = q
        · rw [if_pos hq] at h
          rcases rest with _ | ⟨e, rest'⟩
          · refine ⟨[c], (congrArg (fun p => p.2.1) h).symm, ?_⟩
            rw [closedTail.eq_def]
            dsimp only
            rw [if_neg hb, if_pos hq]
            rfl
          · dsimp only at h
            by_cases hd : isQuoteDelim e = true
            · rw [if_pos hd] at h
              refine ⟨[c], (congrArg (fun p => p.2.1) h).symm, ?_⟩
              rw [closedTail.eq_def]
              dsimp only
              rw [if_neg hb, if_pos hq]
              rfl
            · rw [if_neg hd] at h
              simp at h
        · rw [if_neg hq] at h
          obtain ⟨t, ht, hct⟩ := ih rest (by simp only [List.length_cons] at hn; omega)
            (acc ++ [c]) v s' h
          refine ⟨c :: t, ?_, ?_⟩
          · rw [ht]; simp
          · rw [closedTail.eq_def]
            dsimp only
            rw [if_neg hb, if_neg hq]
            exact hct

theorem lexToken_quoted_ok : ∀ (s v s' : List Char),
    lexToken s = (TokKind.quoted, v, s') → okQuotedTok v = true
  | [], v, s', h => by simp [lexToken] at h
  | c :: rest, v, s', h => by
    simp only [lexToken] at h
    split_ifs at h with h1 h2 h3 h4 h5 h6 h7
    · simp at h
    · simp at h
    · rcases lexComment_kind rest [c] with hk | hk <;> rw [h] at hk <;> simp at hk
    · subst h4
      obtain ⟨t, ht, hct⟩ := lexQuote_closedF '"' (rest.length + 1) rest (by omega)
        ['"'] v s' h
      rw [ht]
      rw [show (['"'] : List Char) ++ t = '"' :: t from rfl]
      have e : okQuotedTok ('"' :: t) =
          (('"' = '"' || '"' = '\'') && closedTail '"' t) := rfl
      rw [e, hct]
      rfl
    · subst h5
      obtain ⟨t, ht, hct⟩ := lexQuote_closedF '\'' (rest.length + 1) rest (by omega)
        ['\''] v s' h
      rw [ht]
      rw [show (['\''] : List Char) ++ t = '\'' :: t from rfl]
      have e : okQuotedTok ('\'' :: t) =
          (('\'' = '"' || '\'' = '\'') && closedTail '\'' t) := rfl
      rw [e, hct]
      rfl
    · simp at h
    · exact lexToken_quoted_ok rest v s' h
    · rcases lexNormal_kind rest [c] with hk | hk <;> rw [h] at hk <;> simp at hk

theorem parseLoop_wf : ∀ (n : Nat) (s : List Char), s.length < n →
    ∀ (l : TokKind) (st : List NStmts) (cfg : NStmts),
      StackOk l st → parseLoop s l st = some cfg → okStmts cfg = true := by
  intro n
  induction n with
  | zero => intro s hs; exact absurd hs (Nat.not_lt_zero _)
  | succ n ih =>
    intro s hs l st cfg hst hp
    rw [parseLoop_eq] at hp
    unfold parseStep at hp
    rcases hlex : lexToken s with ⟨k, v, s'⟩
    rw [hlex] at hp
    have hrest : k ≠ TokKind.eof → s'.length < n := by
      intro hk
      have h1 := lexToken_rest_lt s (by rw [hlex]; exact hk)
      rw [hlex] at h1
      have h2 : s'.length < s.length := h1
      omega
    rcases st with _ | ⟨top, r⟩
    · exact hst.elim
    obtain ⟨htop, hframes⟩ := hst
    cases k with
    | error =>
      dsimp only at hp
      simp at hp
    | start =>
      dsimp only at hp
      simp at hp
    | comment =>
      dsimp only at hp
      exact ih s' (hrest (by decide)) l (top :: r) cfg ⟨htop, hframes⟩ hp
    | normal =>
      dsimp only at hp
      have hok := lexToken_normal_ok s v s' hlex
      split_ifs at hp with hpa hl
      · subst hl
        exact ih s' (hrest (by decide)) .normal (mapLastS (addTok v) top :: r) cfg
          ⟨mapLast_addTok_normal hok top htop, hframes⟩ hp
      · have htop' : okStmts top = true := by
          cases l with
          | start => exact htop
          | statementEnd => exact htop
          | startBlock => exact htop
          | endBlock => exact htop
          | quoted => exact lastOpen_okStmts top htop
          | normal => exact absurd rfl hl
          | comment => exact absurd hpa (by decide)
          | eof => exact absurd hpa (by decide)
          | error => exact absurd hpa (by decide)
        exact ih s' (hrest (by decide)) .normal (snocS top (.mk [v] .leaf) :: r) cfg
          ⟨snocS_lastAllNormal hok top htop', hframes⟩ hp
    | quoted =>
      dsimp only at hp
      have hok := lexToken_quoted_ok s v s' hlex
      split_ifs at hp with hpa hl
      · subst hl
        exact ih s' (hrest (by decide)) .quoted (mapLastS (addTok v) top :: r) cfg
          ⟨mapLast_addTok_quoted hok top htop, hframes⟩ hp
      · have htop' : okStmts top = true := by
          cases l with
          | start => exact htop
          | statementEnd => exact htop
          | startBlock => exact htop
          | endBlock => exact htop
          | quoted => exact lastOpen_okStmts top htop
          | normal => exact absurd rfl hl
          | comment => exact absurd hpa (by decide)
          | eof => exact absurd hpa (by decide)
          | error => exact absurd hpa (by decide)
        exact ih s' (hrest (by decide)) .quoted (snocS top (.mk [v] .leaf) :: r) cfg
          ⟨snocS_lastOpen hok top htop', hframes⟩ hp
    | statementEnd =>
      dsimp only at hp
      split_ifs at hp with hc
      · have hc' : l = TokKind.normal ∨ l = TokKind.quoted := by simpa using hc
        have htop' : okStmts top = true := by
          rcases hc' with rfl | rfl
          · exact lastAllNormal_okStmts top htop
          · exact lastOpen_okStmts top htop
        exact ih s' (hrest (by decide)) .statementEnd (top :: r) cfg ⟨htop', hframes⟩ hp
    | startBlock =>
      dsimp only at hp
      split_ifs at hp with hc
      · have hc' : l = TokKind.normal ∨ l = TokKind.quoted := by simpa using hc
        have hto : lastOpen top = true := by
          rcases hc' with rfl | rfl
          · exact lastAllNormal_lastOpen top htop
          · exact htop
        refine ih s' (hrest (by decide)) .startBlock (.nil :: top :: r) cfg ⟨rfl, ?_⟩ hp
        intro f hf
        rcases List.mem_cons.mp hf with rfl | hf'
        · exact hto
        · exact hframes f hf'
    | endBlock =>
      rcases r with _ | ⟨parent, rr⟩
      · dsimp only at hp
        split_ifs at hp
      · dsimp only at hp
        split_ifs at hp with hc
        have hc' : (l = TokKind.statementEnd ∨ l = TokKind.endBlock) ∨
            l = TokKind.startBlock := by simpa using hc
        have htop' : okStmts top = true := by
          rcases hc' with (rfl | rfl) | rfl <;> exact htop
        have hpar : lastOpen parent = true := hframes parent (by simp)
        refine ih s' (hrest (by decide)) .endBlock
          (mapLastS (setChild top) parent :: rr) cfg
          ⟨mapLast_setChild_ok htop' parent hpar, ?_⟩ hp
        intro f hf
        exact hframes f (by simp [hf])
    | eof =>
      dsimp only at hp
      rcases r with _ | ⟨x, rr⟩
      · dsimp only at hp
        split_ifs at hp with hv hc
        have he : top = cfg := Option.some.inj hp
        subst he
        have hc' : (l = TokKind.start ∨ l = TokKind.statementEnd) ∨
            l = TokKind.endBlock := by simpa using hc
        rcases hc' with (rfl | rfl) | rfl <;> exact htop
      · dsimp only at hp
        split_ifs at hp

theorem parseConfig_wf {s : List Char} {cfg : NStmts} (h : parseConfig s = some cfg) :
    okStmts cfg = true := by
  rw [parseConfig] at h
  exact parseLoop_wf (s.length + 1) s (by omega) .start [.nil] cfg ⟨rfl, by simp⟩ h

/-- C2 (confirmed): for every config tree `cfg` obtained from a successful
`Parse`, feeding `serialize cfg` (two-space indent per nesting depth, single
spaces between tokens, `;` for leaf statements, `{ ... }` for blocks, one
statement per line) back into `Parse` succeeds and yields a tree structurally
equal to `cfg`. -/
theorem claim_C2_roundtrip (s : List Char) (cfg : NStmts)
    (h : parseConfig s = some cfg) : parseConfig (serialize cfg) = some cfg := by
  have hwf : okStmts cfg = true := parseConfig_wf h
  have hres := serStmts_resume cfg 0 .start .nil [] [] hwf (Or.inl rfl)
  rw [List.append_nil] at hres
  rw [parseConfig, serialize, hres]
  rw [show appendS NStmts.nil cfg = cfg from rfl]
  exact parseLoop_eof (nextLast TokKind.start cfg) cfg (nextLast_cases cfg TokKind.start)

/-- C2 witness: the sample config `inputW` (a bare statement, a comment and a
block holding a single-quoted token) parses to `cfgW`, and `Parse` on
`serialize cfgW` returns exactly `cfgW`. -/
theorem claim_C2_roundtrip_witness :
    parseConfig inputW = some cfgW ∧ parseConfig (serialize cfgW) = some cfgW :=
  ⟨rfl, claim_C2_roundtrip inputW cfgW rfl⟩

/-- C7 counterexample: `Init` on `location /api CrudHandler { }` (empty block,
no `data_path`) succeeds — it does not return false, refuting the claimed
validation failure. -/
theorem claim_C7_counterexample :
    regInit cfgCrudW = some [("/api".toList, HSpec.generic "CrudHandler".toList)] :=
  rfl

end Wasd
